import Mathlib

/-!
Shallow embedding of the Gomoku engine core (board state machine, pattern
evaluator, alpha-beta search) together with proofs of the specification
claims. Source files embedded: `src/board.py`, `src/evaluation.py`,
`src/search.py`, `src/engine.py`.

Conventions:
- The Python 2D list `grid` (rows of cells, `grid[x][y]`) is embedded as a
  total function `ℤ → ℤ → ℤ`; every source access is guarded by a bounds
  check, so the function view is faithful.
- The move history list `moves` (Python appends at the end, pops from the
  end, reads `moves[-1]`) is embedded as a stack with the most recent move
  at the HEAD: `append` becomes cons, `pop` drops the head, `moves[-1]` is
  the head.  Everything the source does with `moves` (push, pop, last,
  emptiness test, min/max of coordinates) is order-reversal invariant.
- Python `while` loops over grid positions are embedded with explicit fuel
  `b.size`: every loop walks positions whose moving coordinate is strictly
  monotone inside `[0, size)`, so it iterates at most `size` times.
- `time.time() - start_time` is embedded as an oracle `el : ℕ → ℚ` giving
  the elapsed time at the k-th clock query, with the query counter threaded
  through the search exactly where the source calls `time.time()`.
-/

namespace Gomoku

abbrev Pos := ℤ × ℤ

/-- The board of `src/board.py`: size, grid (`1` black, `-1` white, `0`
empty) and the move history (most recent move first, see the header). -/
@[ext]
structure Board where
  size : ℕ
  grid : ℤ → ℤ → ℤ
  moves : List Pos

/-- `Board.__init__`: an empty grid with no history. -/
def mkBoard (n : ℕ) : Board := ⟨n, fun _ _ => 0, []⟩

/-- Pointwise update of the grid function, `self.grid[x][y] = v`. -/
def setCell (g : ℤ → ℤ → ℤ) (p : Pos) (v : ℤ) : ℤ → ℤ → ℤ :=
  fun a c => if a = p.1 ∧ c = p.2 then v else g a c

/-- `Board.in_bounds`. -/
def Board.in_bounds (b : Board) (p : Pos) : Bool :=
  decide (0 ≤ p.1 ∧ p.1 < (b.size : ℤ) ∧ 0 ≤ p.2 ∧ p.2 < (b.size : ℤ))

/-- `Board.is_empty`. -/
def Board.is_empty (b : Board) (p : Pos) : Bool :=
  decide (b.grid p.1 p.2 = 0)

/-- `Board.place_move`: returns `(success, updated board)`; the source
mutates in place and returns the success flag. -/
def Board.place_move (b : Board) (p : Pos) (pl : ℤ) : Bool × Board :=
  if b.in_bounds p && b.is_empty p then
    (true, ⟨b.size, setCell b.grid p pl, p :: b.moves⟩)
  else
    (false, b)

/-- `Board.undo_move`: no-op on empty history, otherwise pops the last
move and clears its cell. -/
def Board.undo_move (b : Board) : Board :=
  match b.moves with
  | [] => b
  | p :: rest => ⟨b.size, setCell b.grid p 0, rest⟩

/-- A sequence of `place_move` calls; returns the final board and whether
every call in the sequence returned `True`. -/
def placeSeq (b : Board) : List (Pos × ℤ) → Board × Bool
  | [] => (b, true)
  | (p, pl) :: rest =>
    let r := b.place_move p pl
    let r2 := placeSeq r.2 rest
    (r2.1, r.1 && r2.2)

/-- `n` successive `undo_move` calls. -/
def undoN (b : Board) : ℕ → Board
  | 0 => b
  | n + 1 => (undoN b n).undo_move

lemma setCell_setCell_cancel (g : ℤ → ℤ → ℤ) (p : Pos) (v : ℤ)
    (h : g p.1 p.2 = 0) : setCell (setCell g p v) p 0 = g := by
  funext a c
  by_cases hac : a = p.1 ∧ c = p.2
  · simp [setCell, hac, ← h, hac.1, hac.2]
  · simp [setCell, hac]

/-- A successful placement is inverted by one `undo_move`. -/
lemma place_move_undo {b b1 : Board} {p : Pos} {pl : ℤ}
    (h : b.place_move p pl = (true, b1)) : b1.undo_move = b := by
  unfold Board.place_move at h
  by_cases hc : (b.in_bounds p && b.is_empty p) = true
  · simp only [hc, if_true] at h
    have hempty : b.grid p.1 p.2 = 0 := by
      have := (Bool.and_eq_true _ _).mp hc
      simpa [Board.is_empty] using this.2
    have hb1 : b1 = ⟨b.size, setCell b.grid p pl, p :: b.moves⟩ := by
      have := congrArg Prod.snd h
      simpa using this.symm
    subst hb1
    simp only [Board.undo_move]
    ext <;> simp [setCell_setCell_cancel b.grid p pl hempty]
  · simp only [Bool.not_eq_true] at hc
    simp [hc] at h

/-- C3: `place(pos, player)` returns false and leaves the board unchanged
iff `pos` is out of bounds or occupied; otherwise it marks the cell,
pushes `pos` onto the history and returns true. -/
theorem place_move_characterization (b : Board) (p : Pos) (pl : ℤ) :
    (((b.place_move p pl).1 = false ∧ (b.place_move p pl).2 = b) ↔
      (b.in_bounds p = false ∨ b.is_empty p = false))
    ∧ (b.in_bounds p = true → b.is_empty p = true →
        b.place_move p pl = (true, ⟨b.size, setCell b.grid p pl, p :: b.moves⟩)) := by
  constructor
  · by_cases hc : (b.in_bounds p && b.is_empty p) = true
    · have := (Bool.and_eq_true _ _).mp hc
      simp [Board.place_move, hc, this.1, this.2]
    · have h' : b.in_bounds p = false ∨ b.is_empty p = false := by
        by_cases h1 : b.in_bounds p = true
        · by_cases h2 : b.is_empty p = true
          · exact absurd ((Bool.and_eq_true _ _).mpr ⟨h1, h2⟩) hc
          · exact Or.inr (Bool.not_eq_true _ ▸ h2)
        · exact Or.inl (Bool.not_eq_true _ ▸ h1)
      simp [Board.place_move, hc, h']
  · intro h1 h2
    simp [Board.place_move, h1, h2]

/-- Witness for C3 on a concrete board: placing on the empty 3×3 board at
(0,0) succeeds with the expected updated board, and placing out of bounds
fails without mutation. -/
theorem place_move_characterization_witness :
    (mkBoard 3).place_move (0, 0) 1 =
      (true, ⟨3, setCell (mkBoard 3).grid (0, 0) 1, [((0 : ℤ), (0 : ℤ))]⟩) ∧
    (((mkBoard 3).place_move (5, 0) 1).1 = false ∧
      ((mkBoard 3).place_move (5, 0) 1).2 = mkBoard 3) := by
  constructor
  · exact (place_move_characterization (mkBoard 3) (0, 0) 1).2 (by decide) (by decide)
  · exact ((place_move_characterization (mkBoard 3) (5, 0) 1).1).mpr (by decide)

/-- C4: any sequence of successful `place` calls followed by the same
number of `undo` calls restores the board exactly, and `undo` on an empty
history is a no-op. -/
theorem place_undo_roundtrip :
    (∀ (b : Board) (ps : List (Pos × ℤ)), (placeSeq b ps).2 = true →
      undoN (placeSeq b ps).1 ps.length = b)
    ∧ (∀ b : Board, b.moves = [] → b.undo_move = b) := by
  constructor
  · intro b ps
    induction ps generalizing b with
    | nil => intro _; rfl
    | cons hd rest ih =>
      intro hok
      obtain ⟨p, pl⟩ := hd
      simp only [placeSeq] at hok ⊢
      rcases hr : b.place_move p pl with ⟨ok, b1⟩
      simp only [hr, Bool.and_eq_true] at hok ⊢
      have hok1 : ok = true := hok.1
      subst hok1
      have ih' := ih b1 hok.2
      simp only [List.length_cons, undoN, ih']
      exact place_move_undo hr
  · intro b hb
    unfold Board.undo_move
    split
    · rfl
    · rename_i p rest h
      rw [hb] at h
      cases h

/-- Witness for C4: two placements on the empty 4×4 board followed by two
undos restore the empty board, and undoing the empty board is a no-op. -/
theorem place_undo_roundtrip_witness :
    undoN (placeSeq (mkBoard 4) [(((0 : ℤ), (0 : ℤ)), 1), (((1 : ℤ), (2 : ℤ)), -1)]).1 2 = mkBoard 4 ∧
    (mkBoard 4).undo_move = mkBoard 4 := by
  constructor
  · exact place_undo_roundtrip.1 (mkBoard 4) [(((0 : ℤ), (0 : ℤ)), 1), (((1 : ℤ), (2 : ℤ)), -1)]
      (by decide)
  · exact place_undo_roundtrip.2 (mkBoard 4) rfl

/-- The list of integers `lo, lo+1, …, hi` (empty when `hi < lo`),
embedding Python `range(lo, hi+1)`. -/
def intRange (lo hi : ℤ) : List ℤ :=
  (List.range (hi + 1 - lo).toNat).map (fun (i : ℕ) => lo + (i : ℤ))

lemma mem_intRange {a lo hi : ℤ} : a ∈ intRange lo hi ↔ lo ≤ a ∧ a ≤ hi := by
  unfold intRange
  constructor
  · intro h
    obtain ⟨i, hmem, rfl⟩ := List.mem_map.mp h
    have := List.mem_range.mp hmem
    omega
  · intro h
    exact List.mem_map.mpr ⟨(a - lo).toNat, List.mem_range.mpr (by omega), by omega⟩

/-- `Board.is_full`. -/
def Board.is_full (b : Board) : Bool :=
  (intRange 0 ((b.size : ℤ) - 1)).all fun x =>
    (intRange 0 ((b.size : ℤ) - 1)).all fun y => !(b.is_empty (x, y))

/-- `Board._has_neighbor`: some occupied in-bounds cell at Chebyshev
distance at most `r` (the offset `(0,0)` is skipped). -/
def Board.has_neighbor (b : Board) (p : Pos) (r : ℤ) : Bool :=
  (intRange (-r) r).any fun dx =>
    (intRange (-r) r).any fun dy =>
      if dx = 0 ∧ dy = 0 then false
      else b.in_bounds (p.1 + dx, p.2 + dy) && !(b.is_empty (p.1 + dx, p.2 + dy))

/-- `min(xs)` of the x coordinates of the history `m :: rest`. -/
def movesMinX (m : Pos) (rest : List Pos) : ℤ := (rest.map Prod.fst).foldl min m.1

/-- `max(xs)` of the x coordinates of the history `m :: rest`. -/
def movesMaxX (m : Pos) (rest : List Pos) : ℤ := (rest.map Prod.fst).foldl max m.1

/-- `min(ys)` of the y coordinates of the history `m :: rest`. -/
def movesMinY (m : Pos) (rest : List Pos) : ℤ := (rest.map Prod.snd).foldl min m.2

/-- `max(ys)` of the y coordinates of the history `m :: rest`. -/
def movesMaxY (m : Pos) (rest : List Pos) : ℤ := (rest.map Prod.snd).foldl max m.2

/-- `Board.generate_moves`: the single centre cell on an untouched board,
otherwise the empty cells of the radius-expanded clamped bounding box of
the played stones that have an occupied cell nearby. -/
def Board.generate_moves (b : Board) (r : ℤ) : List Pos :=
  match b.moves with
  | [] => [(((b.size / 2 : ℕ) : ℤ), ((b.size / 2 : ℕ) : ℤ))]
  | m :: rest =>
    let lo1 := max (movesMinX m rest - r) 0
    let hi1 := min (movesMaxX m rest + r) ((b.size : ℤ) - 1)
    let lo2 := max (movesMinY m rest - r) 0
    let hi2 := min (movesMaxY m rest + r) ((b.size : ℤ) - 1)
    (intRange lo1 hi1).flatMap fun x =>
      (intRange lo2 hi2).filterMap fun y =>
        if b.is_empty (x, y) then
          (if b.has_neighbor (x, y) r then some (x, y) else none)
        else none

/-- Chebyshev distance between two positions. -/
def chebDist (p q : Pos) : ℕ := max (p.1 - q.1).natAbs (p.2 - q.2).natAbs

lemma foldl_min_le_init (l : List ℤ) (x : ℤ) : l.foldl min x ≤ x := by
  induction l generalizing x with
  | nil => exact le_refl x
  | cons a t ih => exact le_trans (ih (min x a)) (min_le_left x a)

lemma foldl_min_le_of_mem {l : List ℤ} {a : ℤ} (x : ℤ) (h : a ∈ l) :
    l.foldl min x ≤ a := by
  induction l generalizing x with
  | nil => cases h
  | cons hd t ih =>
    rcases List.mem_cons.mp h with rfl | h'
    · exact le_trans (foldl_min_le_init t (min x a)) (min_le_right x a)
    · exact ih (min x hd) h'

lemma le_foldl_max_init (l : List ℤ) (x : ℤ) : x ≤ l.foldl max x := by
  induction l generalizing x with
  | nil => exact le_refl x
  | cons a t ih => exact le_trans (le_max_left x a) (ih (max x a))

lemma le_foldl_max_of_mem {l : List ℤ} {a : ℤ} (x : ℤ) (h : a ∈ l) :
    a ≤ l.foldl max x := by
  induction l generalizing x with
  | nil => cases h
  | cons hd t ih =>
    rcases List.mem_cons.mp h with rfl | h'
    · exact le_trans (le_max_right x a) (le_foldl_max_init t (max x a))
    · exact ih (max x hd) h'

lemma has_neighbor_iff (b : Board) (p : Pos) (r : ℤ) :
    b.has_neighbor p r = true ↔
      ∃ q : Pos, b.in_bounds q = true ∧ b.is_empty q = false ∧ q ≠ p ∧
        (chebDist q p : ℤ) ≤ r := by
  unfold Board.has_neighbor
  simp only [List.any_eq_true, mem_intRange]
  constructor
  · rintro ⟨dx, hdx, dy, hdy, hval⟩
    by_cases h0 : dx = 0 ∧ dy = 0
    · simp [h0] at hval
    · simp only [h0, if_false, Bool.and_eq_true, Bool.not_eq_true'] at hval
      refine ⟨(p.1 + dx, p.2 + dy), hval.1, hval.2, ?_, ?_⟩
      · intro hq
        have h1 : p.1 + dx = p.1 := congrArg Prod.fst hq
        have h2 : p.2 + dy = p.2 := congrArg Prod.snd hq
        exact h0 ⟨by omega, by omega⟩
      · simp only [chebDist]
        rw [Nat.cast_max]
        refine max_le ?_ ?_ <;> omega
  · rintro ⟨q, hin, hocc, hne, hd⟩
    simp only [chebDist] at hd
    rw [Nat.cast_max] at hd
    have hd1 := le_trans (le_max_left ((q.1 - p.1).natAbs : ℤ) ((q.2 - p.2).natAbs : ℤ)) hd
    have hd2 := le_trans (le_max_right ((q.1 - p.1).natAbs : ℤ) ((q.2 - p.2).natAbs : ℤ)) hd
    refine ⟨q.1 - p.1, by omega, q.2 - p.2, by omega, ?_⟩
    · have h0 : ¬(q.1 - p.1 = 0 ∧ q.2 - p.2 = 0) := by
        intro h
        exact hne (Prod.ext (by omega) (by omega))
      simp only [h0, if_false, Bool.and_eq_true, Bool.not_eq_true']
      have hq : (p.1 + (q.1 - p.1), p.2 + (q.2 - p.2)) = q := Prod.ext (by ring) (by ring)
      rw [hq]
      exact ⟨hin, hocc⟩

/-- C7: with no stones played, `candidateMoves` is exactly the single
centre cell; otherwise membership is equivalent to being an empty cell of
the radius-expanded clamped bounding box of the played stones that has an
occupied cell within Chebyshev distance `r`. -/
theorem generate_moves_characterization (b : Board) (r : ℤ) :
    (b.moves = [] →
      b.generate_moves r = [(((b.size / 2 : ℕ) : ℤ), ((b.size / 2 : ℕ) : ℤ))])
    ∧ (∀ m rest, b.moves = m :: rest → ∀ p : Pos,
        (p ∈ b.generate_moves r ↔
          b.is_empty p = true ∧
          (max (movesMinX m rest - r) 0 ≤ p.1 ∧
            p.1 ≤ min (movesMaxX m rest + r) ((b.size : ℤ) - 1) ∧
            max (movesMinY m rest - r) 0 ≤ p.2 ∧
            p.2 ≤ min (movesMaxY m rest + r) ((b.size : ℤ) - 1)) ∧
          (∃ q : Pos, b.in_bounds q = true ∧ b.is_empty q = false ∧ q ≠ p ∧
            (chebDist q p : ℤ) ≤ r))) := by
  constructor
  · intro h
    unfold Board.generate_moves
    rw [h]
  · intro m rest hmr p
    unfold Board.generate_moves
    rw [hmr]
    simp only [List.mem_flatMap, List.mem_filterMap, mem_intRange]
    constructor
    · rintro ⟨x, hx, y, hy, hval⟩
      by_cases he : b.is_empty (x, y) = true
      · by_cases hn : b.has_neighbor (x, y) r = true
        · simp only [he, if_true, hn, Option.some_inj] at hval
          subst hval
          exact ⟨he, ⟨hx.1, hx.2, hy.1, hy.2⟩, (has_neighbor_iff b (x, y) r).mp hn⟩
        · simp [he, hn] at hval
      · simp [he] at hval
    · rintro ⟨he, ⟨hx1, hx2, hy1, hy2⟩, hq⟩
      refine ⟨p.1, ⟨hx1, hx2⟩, p.2, ⟨hy1, hy2⟩, ?_⟩
      have hp : (p.1, p.2) = p := rfl
      rw [hp, he, if_pos rfl, (has_neighbor_iff b p r).mpr hq, if_pos rfl]

/-- Witness for C7: the untouched 5×5 board generates exactly the centre,
and on a 3×3 board with one stone at the origin the cell `(0, 1)` is a
candidate at radius 2. -/
theorem generate_moves_characterization_witness :
    (mkBoard 5).generate_moves 2 = [((2 : ℤ), (2 : ℤ))] ∧
    ((0 : ℤ), (1 : ℤ)) ∈ (((mkBoard 3).place_move (0, 0) 1).2).generate_moves 2 := by
  constructor
  · exact (generate_moves_characterization (mkBoard 5) 2).1 rfl
  · refine ((generate_moves_characterization (((mkBoard 3).place_move (0, 0) 1).2) 2).2
      (0, 0) [] (by decide) ((0 : ℤ), (1 : ℤ))).mpr ?_
    refine ⟨by decide, by decide, ⟨((0 : ℤ), (0 : ℤ)), by decide, by decide, by decide, by decide⟩⟩

/-- The pattern table of `src/evaluation.py` in source order, with each
encoded string written as its digit list (`1` = scored player's stone,
`2` = opponent stone, `0` = empty). -/
def PATTERN_SCORES : List (List ℕ × ℕ) :=
  [([1, 1, 1, 1, 1], 100000),
   ([0, 1, 1, 1, 1, 0], 10000),
   ([2, 1, 1, 1, 1, 0], 5000),
   ([1, 1, 1, 1, 0, 2], 5000),
   ([1, 0, 1, 1, 1], 5000),
   ([1, 1, 0, 1, 1], 5000),
   ([1, 1, 1, 0, 1], 5000),
   ([0, 1, 1, 1, 0, 0], 1000),
   ([0, 0, 1, 1, 1, 0], 1000),
   ([0, 1, 1, 0, 1, 0], 1000),
   ([0, 1, 0, 1, 1, 0], 1000),
   ([0, 0, 1, 1, 1, 2], 200),
   ([0, 1, 0, 1, 1, 2], 200),
   ([0, 1, 1, 0, 1, 2], 200),
   ([2, 1, 1, 1, 0, 0], 200),
   ([2, 1, 1, 0, 1, 0], 200),
   ([2, 1, 0, 1, 1, 0], 200),
   ([0, 0, 1, 1, 0], 50),
   ([0, 1, 1, 0, 0], 50),
   ([0, 1, 0, 1, 0], 50),
   ([0, 1, 0, 0, 1, 0], 50)]

/-- Helper for `findFrom`, scanning suffixes of the line. -/
def findFromAux (p : List ℕ) : List ℕ → ℕ → Option ℕ
  | [], i => if p.isPrefixOf [] then some i else none
  | a :: t, i => if p.isPrefixOf (a :: t) then some i else findFromAux p t (i + 1)

/-- Python `encoded.find(pattern, start)`: the least index `i ≥ start`
where `pattern` occurs in `s`, if any. -/
def findFrom (s p : List ℕ) (start : ℕ) : Option ℕ :=
  findFromAux p (s.drop start) start

/-- The repeated-find loop of `_score_encoded_line` for one pattern:
every occurrence adds `v`, searching again one position past each match
start.  Match starts strictly increase and stay at most `s.length`, so
fuel `s.length + 1` never cuts the loop short. -/
def scoreGo (p : List ℕ) (v : ℕ) (s : List ℕ) : ℕ → ℕ → ℕ
  | _, 0 => 0
  | idx, fuel + 1 =>
    match findFrom s p idx with
    | none => 0
    | some i => v + scoreGo p v s (i + 1) fuel

/-- `_score_encoded_line`: accumulate every pattern's contribution (the
source loops over the dict items adding to a running score). -/
def score_encoded_line (s : List ℕ) : ℕ :=
  (PATTERN_SCORES.map (fun pv => scoreGo pv.1 pv.2 s 0 (s.length + 1))).sum

/-- `_encode_line`. -/
def encode_line (line : List ℤ) (pl : ℤ) : List ℕ :=
  line.map fun cell => if cell = pl then 1 else if cell = -pl then 2 else 0

/-- `_extract_lines`: all rows and columns, and every diagonal and
anti-diagonal of length at least 5. -/
def extract_lines (b : Board) : List (List ℤ) :=
  ((intRange 0 ((b.size : ℤ) - 1)).flatMap fun i =>
    [(intRange 0 ((b.size : ℤ) - 1)).map (fun y => b.grid i y),
     (intRange 0 ((b.size : ℤ) - 1)).map (fun x => b.grid x i)])
  ++ ((intRange (-(b.size : ℤ) + 1) ((b.size : ℤ) - 1)).filterMap fun d =>
    let diag := (intRange (max d 0) (min ((b.size : ℤ) + d) (b.size : ℤ) - 1)).map
      (fun i => b.grid i (i - d))
    if 5 ≤ diag.length then some diag else none)
  ++ ((intRange 0 (2 * (b.size : ℤ) - 2)).filterMap fun d =>
    let anti := (intRange 0 ((b.size : ℤ) - 1)).filterMap (fun x =>
      if 0 ≤ d - x ∧ d - x < (b.size : ℤ) then some (b.grid x (d - x)) else none)
    if 5 ≤ anti.length then some anti else none)

/-- `_evaluate_player`: sum the pattern score of every extracted line. -/
def evaluate_player (b : Board) (pl : ℤ) : ℕ :=
  ((extract_lines b).map fun line => score_encoded_line (encode_line line pl)).sum

/-- `evaluate`: `player_score - int(0.9 * opp_score)`.  Every pattern
value is a multiple of 50, so each per-player score is a multiple of 50;
hence `0.9 * opp_score` is mathematically the integer `9 * opp_score / 10`,
the float product computes it exactly (scores stay far below `2 ^ 49`),
and Python `int` truncation returns exactly that integer.  The embedding
therefore uses exact natural division. -/
def evaluate (b : Board) (pl : ℤ) : ℤ :=
  (evaluate_player b pl : ℤ) - ((9 * evaluate_player b (-pl)) / 10 : ℕ)

lemma fifty_dvd_scoreGo (p : List ℕ) (v : ℕ) (s : List ℕ) (hv : 50 ∣ v) :
    ∀ fuel idx, 50 ∣ scoreGo p v s idx fuel := by
  intro fuel
  induction fuel with
  | zero => intro idx; exact dvd_zero 50
  | succ n ih =>
    intro idx
    simp only [scoreGo]
    cases findFrom s p idx with
    | none => exact Dvd.intro 0 rfl
    | some i => exact dvd_add hv (ih (i + 1))

lemma fifty_dvd_evaluate_player (b : Board) (pl : ℤ) :
    50 ∣ evaluate_player b pl := by
  unfold evaluate_player
  refine List.dvd_sum ?_
  intro x hx
  obtain ⟨line, _, rfl⟩ := List.mem_map.mp hx
  unfold score_encoded_line
  refine List.dvd_sum ?_
  intro y hy
  obtain ⟨pv, hpv, rfl⟩ := List.mem_map.mp hy
  have hval : 50 ∣ pv.2 := by
    have : ∀ q ∈ PATTERN_SCORES, 50 ∣ q.2 := by decide
    exact this pv hpv
  exact fifty_dvd_scoreGo pv.1 pv.2 _ hval _ 0

/-- C1: `evaluate(board, player)` is the per-player score of `player`
minus `round(0.9 * opponentScore)`, both per-player scores coming from
the same line-pattern mechanism applied to the two players. -/
theorem evaluate_round_characterization (b : Board) (pl : ℤ) :
    evaluate b pl =
      (evaluate_player b pl : ℤ) -
        round ((0.9 : ℚ) * (evaluate_player b (-pl) : ℚ)) := by
  obtain ⟨k, hk⟩ := fifty_dvd_evaluate_player b (-pl)
  have hdiv : 9 * evaluate_player b (-pl) / 10 = 45 * k := by omega
  have hq : (0.9 : ℚ) * (evaluate_player b (-pl) : ℚ) = ((45 * k : ℕ) : ℚ) := by
    rw [hk]
    push_cast
    ring_nf
  rw [evaluate, hdiv, hq, round_natCast]

/-- The four scan axes of `get_winner_line`. -/
def DIRS : List Pos := [(1, 0), (0, 1), (1, 1), (1, -1)]

/-- Lexicographic order on positions, the order Python `list.sort()` uses
on coordinate tuples. -/
def posLe (a c : Pos) : Prop := a.1 < c.1 ∨ (a.1 = c.1 ∧ a.2 ≤ c.2)

instance posLe.decRel : DecidableRel posLe := fun a c =>
  inferInstanceAs (Decidable (a.1 < c.1 ∨ (a.1 = c.1 ∧ a.2 ≤ c.2)))

instance posLe.total : IsTotal Pos posLe :=
  ⟨by intro a c; unfold posLe; omega⟩

instance posLe.trans : IsTrans Pos posLe :=
  ⟨by intro a c e h1 h2; unfold posLe at h1 h2 ⊢; omega⟩

/-- The while loop of `Board._collect_dir`, with fuel `b.size`: it walks
cells whose moving coordinate is strictly monotone inside `[0, size)`, so
it runs at most `size` times and the fuel never cuts it short. -/
def collectGo (b : Board) (pl dx dy : ℤ) : Pos → ℕ → List Pos
  | _, 0 => []
  | q, fuel + 1 =>
    if b.in_bounds q = true ∧ b.grid q.1 q.2 = pl then
      q :: collectGo b pl dx dy (q.1 + dx, q.2 + dy) fuel
    else []

/-- `Board._collect_dir`: append to `acc` the contiguous same-player
cells strictly beyond `(x, y)` in direction `(dx, dy)`. -/
def collect_dir (b : Board) (x y dx dy pl : ℤ) (acc : List Pos) : List Pos :=
  acc ++ collectGo b pl dx dy (x + dx, y + dy) b.size

/-- `Board.get_winner_line`: anchored at the most recent move; the first
axis whose two-sided contiguous extension reaches 5 cells wins.  Python
`line.sort()` is embedded as an insertion sort by the lexicographic
order (sorting by a total antisymmetric order is algorithm independent). -/
def Board.get_winner_line (b : Board) : Option (ℤ × List Pos) :=
  match b.moves with
  | [] => none
  | m :: _ =>
    DIRS.findSome? fun d =>
      let pl := b.grid m.1 m.2
      let line :=
        collect_dir b m.1 m.2 (-d.1) (-d.2) pl (collect_dir b m.1 m.2 d.1 d.2 pl [(m.1, m.2)])
      if 5 ≤ line.length then some (pl, line.insertionSort posLe) else none

/-- `Board.get_winner`. -/
def Board.get_winner (b : Board) : Option ℤ := b.get_winner_line.map Prod.fst

/-- The cell `q` is on the board and holds a stone of `pl`. -/
def goodCell (b : Board) (pl : ℤ) (q : Pos) : Prop :=
  b.in_bounds q = true ∧ b.grid q.1 q.2 = pl

instance goodCell.dec (b : Board) (pl : ℤ) (q : Pos) : Decidable (goodCell b pl q) :=
  inferInstanceAs (Decidable (b.in_bounds q = true ∧ b.grid q.1 q.2 = pl))

/-- The cell `k` steps from `p` along direction `d`. -/
def pt (p d : Pos) (k : ℤ) : Pos := (p.1 + k * d.1, p.2 + k * d.2)

/-- Specification predicate for C2: `L` is the maximal contiguous run of
`pl` stones through `p` along axis `d`, listed in axis order, with both
one-step extensions blocked (off board or not `pl`). -/
def IsMaxRun (b : Board) (p d : Pos) (pl : ℤ) (L : List Pos) : Prop :=
  ∃ a c : ℕ,
    L = (intRange (-(a : ℤ)) (c : ℤ)).map (pt p d) ∧
    (∀ k : ℤ, -(a : ℤ) ≤ k → k ≤ (c : ℤ) → goodCell b pl (pt p d k)) ∧
    ¬ goodCell b pl (pt p d ((c : ℤ) + 1)) ∧
    ¬ goodCell b pl (pt p d (-((a : ℤ) + 1)))

lemma collectGo_spec (b : Board) (pl dx dy : ℤ) :
    ∀ (fuel : ℕ) (q : Pos),
      ∃ c : ℕ, c ≤ fuel ∧
        collectGo b pl dx dy q fuel =
          (List.range c).map (fun (j : ℕ) => (q.1 + (j : ℤ) * dx, q.2 + (j : ℤ) * dy)) ∧
        (∀ j : ℕ, j < c → goodCell b pl (q.1 + (j : ℤ) * dx, q.2 + (j : ℤ) * dy)) ∧
        (c < fuel → ¬ goodCell b pl (q.1 + (c : ℤ) * dx, q.2 + (c : ℤ) * dy)) := by
  intro fuel
  induction fuel with
  | zero =>
    intro q
    exact ⟨0, le_refl 0, rfl, fun j hj => absurd hj (Nat.not_lt_zero j), fun h => absurd h (lt_irrefl 0)⟩
  | succ n ih =>
    intro q
    by_cases hq : b.in_bounds q = true ∧ b.grid q.1 q.2 = pl
    · obtain ⟨c, hle, hshape, hgood, hmax⟩ := ih (q.1 + dx, q.2 + dy)
      refine ⟨c + 1, by omega, ?_, ?_, ?_⟩
      · show collectGo b pl dx dy q (n + 1) = _
        rw [collectGo, if_pos hq, hshape, List.range_succ_eq_map, List.map_cons, List.map_map]
        congr 1
        · exact Prod.ext (by simp) (by simp)
        · refine List.map_congr_left ?_
          intro j hj
          simp only [Function.comp_apply, Prod.ext_iff]
          constructor <;> (push_cast; ring)
      · intro j hj
        match j with
        | 0 =>
          simp only [Nat.cast_zero, zero_mul, add_zero]
          exact hq
        | j + 1 =>
          have hpos : (q.1 + ((j + 1 : ℕ) : ℤ) * dx, q.2 + ((j + 1 : ℕ) : ℤ) * dy) =
              ((q.1 + dx) + (j : ℤ) * dx, (q.2 + dy) + (j : ℤ) * dy) :=
            Prod.ext (by push_cast; ring) (by push_cast; ring)
          rw [hpos]
          exact hgood j (by omega)
      · intro hlt
        have hpos : (q.1 + ((c + 1 : ℕ) : ℤ) * dx, q.2 + ((c + 1 : ℕ) : ℤ) * dy) =
            ((q.1 + dx) + (c : ℤ) * dx, (q.2 + dy) + (c : ℤ) * dy) :=
          Prod.ext (by push_cast; ring) (by push_cast; ring)
        rw [hpos]
        exact hmax (by omega)
    · refine ⟨0, by omega, ?_, fun j hj => absurd hj (Nat.not_lt_zero j), ?_⟩
      · show collectGo b pl dx dy q (n + 1) = _
        rw [collectGo, if_neg hq]
        rfl
      · intro _
        simp only [Nat.cast_zero, zero_mul, add_zero]
        exact hq

/-- The moving-coordinate condition satisfied by every axis direction and
its negation. -/
def dirCond (e : Pos) : Prop :=
  e.1 = 1 ∨ e.1 = -1 ∨ (e.1 = 0 ∧ (e.2 = 1 ∨ e.2 = -1))

lemma dirCond_of_mem {d : Pos} (hd : d ∈ DIRS) :
    dirCond d ∧ dirCond (-d.1, -d.2) := by
  fin_cases hd <;> exact ⟨by unfold dirCond; omega, by unfold dirCond; omega⟩

lemma chain_len_lt (b : Board) (pl : ℤ) {e : Pos} (he : dirCond e)
    {p : Pos} (hp : b.in_bounds p = true) {c : ℕ}
    (hgood : ∀ j : ℕ, j < c →
      goodCell b pl (p.1 + e.1 + (j : ℤ) * e.1, p.2 + e.2 + (j : ℤ) * e.2)) :
    c < b.size := by
  have hpb : 0 ≤ p.1 ∧ p.1 < (b.size : ℤ) ∧ 0 ≤ p.2 ∧ p.2 < (b.size : ℤ) := by
    simpa [Board.in_bounds] using hp
  match c with
  | 0 => omega
  | m + 1 =>
    have hg := (hgood m (by omega)).1
    have hgb : 0 ≤ p.1 + e.1 + (m : ℤ) * e.1 ∧ p.1 + e.1 + (m : ℤ) * e.1 < (b.size : ℤ) ∧
        0 ≤ p.2 + e.2 + (m : ℤ) * e.2 ∧ p.2 + e.2 + (m : ℤ) * e.2 < (b.size : ℤ) := by
      simpa [Board.in_bounds] using hg
    unfold dirCond at he
    rcases he with h1 | h1 | ⟨h1, h2 | h2⟩ <;>
      [rw [h1] at hgb; rw [h1] at hgb; rw [h2] at hgb; rw [h2] at hgb] <;>
      omega

lemma intRange_length (lo hi : ℤ) : (intRange lo hi).length = (hi + 1 - lo).toNat := by
  simp [intRange]

lemma intRange_nodup (lo hi : ℤ) : (intRange lo hi).Nodup := by
  unfold intRange
  exact (List.nodup_range _).map (fun i j h => by omega)

lemma pt_injective {d : Pos} (hd : d ∈ DIRS) (p : Pos) : Function.Injective (pt p d) := by
  intro k k' h
  rw [Prod.ext_iff] at h
  fin_cases hd <;> (simp only [pt] at h; omega)

/-- The body of `get_winner_line` for one axis: length, content (as a
permutation of the maximal contiguous run through the anchor), and the
fact that the run so produced is maximal. -/
lemma line_spec (b : Board) {p : Pos} (hp : b.in_bounds p = true) {d : Pos}
    (hd : d ∈ DIRS) {pl : ℤ} (hpl : b.grid p.1 p.2 = pl) :
    ∃ cf cb : ℕ,
      (collect_dir b p.1 p.2 (-d.1) (-d.2) pl
          (collect_dir b p.1 p.2 d.1 d.2 pl [(p.1, p.2)])).length = 1 + cf + cb ∧
      List.Perm
        (collect_dir b p.1 p.2 (-d.1) (-d.2) pl
          (collect_dir b p.1 p.2 d.1 d.2 pl [(p.1, p.2)]))
        ((intRange (-(cb : ℤ)) (cf : ℤ)).map (pt p d)) ∧
      IsMaxRun b p d pl ((intRange (-(cb : ℤ)) (cf : ℤ)).map (pt p d)) := by
  obtain ⟨hdc, hdcneg⟩ := dirCond_of_mem hd
  obtain ⟨cf, hcfle, hfshape, hfgood, hfmax⟩ :=
    collectGo_spec b pl d.1 d.2 b.size (p.1 + d.1, p.2 + d.2)
  obtain ⟨cb, hcble, hbshape, hbgood, hbmax⟩ :=
    collectGo_spec b pl (-d.1) (-d.2) b.size (p.1 + -d.1, p.2 + -d.2)
  have hfgood' : ∀ j : ℕ, j < cf → goodCell b pl (pt p d ((j : ℤ) + 1)) := by
    intro j hj
    have := hfgood j hj
    have hpos : ((p.1 + d.1, p.2 + d.2).1 + (j : ℤ) * d.1, (p.1 + d.1, p.2 + d.2).2 + (j : ℤ) * d.2)
        = pt p d ((j : ℤ) + 1) := by
      simp only [pt, Prod.ext_iff]
      constructor <;> ring
    rwa [hpos] at this
  have hbgood' : ∀ j : ℕ, j < cb → goodCell b pl (pt p d (-((j : ℤ) + 1))) := by
    intro j hj
    have := hbgood j hj
    have hpos : ((p.1 + -d.1, p.2 + -d.2).1 + (j : ℤ) * -d.1,
        (p.1 + -d.1, p.2 + -d.2).2 + (j : ℤ) * -d.2) = pt p d (-((j : ℤ) + 1)) := by
      simp only [pt, Prod.ext_iff]
      constructor <;> ring
    rwa [hpos] at this
  have hcf : cf < b.size := by
    refine chain_len_lt b pl hdc hp (c := cf) ?_
    intro j hj
    exact hfgood j hj
  have hcb : cb < b.size := by
    refine chain_len_lt b pl hdcneg hp (c := cb) ?_
    intro j hj
    exact hbgood j hj
  have hfmax' : ¬ goodCell b pl (pt p d ((cf : ℤ) + 1)) := by
    have := hfmax hcf
    have hpos : ((p.1 + d.1, p.2 + d.2).1 + (cf : ℤ) * d.1,
        (p.1 + d.1, p.2 + d.2).2 + (cf : ℤ) * d.2) = pt p d ((cf : ℤ) + 1) := by
      simp only [pt, Prod.ext_iff]
      constructor <;> ring
    rwa [hpos] at this
  have hbmax' : ¬ goodCell b pl (pt p d (-((cb : ℤ) + 1))) := by
    have := hbmax hcb
    have hpos : ((p.1 + -d.1, p.2 + -d.2).1 + (cb : ℤ) * -d.1,
        (p.1 + -d.1, p.2 + -d.2).2 + (cb : ℤ) * -d.2) = pt p d (-((cb : ℤ) + 1)) := by
      simp only [pt, Prod.ext_iff]
      constructor <;> ring
    rwa [hpos] at this
  have hrun : IsMaxRun b p d pl ((intRange (-(cb : ℤ)) (cf : ℤ)).map (pt p d)) := by
    refine ⟨cb, cf, rfl, ?_, hfmax', hbmax'⟩
    intro k hk1 hk2
    rcases lt_trichotomy k 0 with hk | hk | hk
    · have hj : ((-k - 1).toNat : ℤ) = -k - 1 := by omega
      have := hbgood' (-k - 1).toNat (by omega)
      rw [hj] at this
      have hkk : -(((-k - 1) : ℤ) + 1) = k := by ring
      rwa [hkk] at this
    · subst hk
      have hpt : pt p d 0 = (p.1, p.2) := by
        simp [pt]
      rw [hpt]
      exact ⟨hp, hpl⟩
    · have hj : ((k - 1).toNat : ℤ) = k - 1 := by omega
      have := hfgood' (k - 1).toNat (by omega)
      rw [hj] at this
      have hkk : ((k - 1) : ℤ) + 1 = k := by ring
      rwa [hkk] at this
  refine ⟨cf, cb, ?_, ?_, hrun⟩
  · simp only [collect_dir, List.length_append, hfshape, hbshape, List.length_map,
      List.length_range, List.length_cons, List.length_nil]
    try omega
  · unfold collect_dir
    rw [hfshape, hbshape]
    have hFf : List.map (pt p d) ((List.range cf).map (fun (j : ℕ) => (j : ℤ) + 1)) =
        (List.range cf).map (fun (j : ℕ) => ((p.1 + d.1, p.2 + d.2).1 + (j : ℤ) * d.1,
          (p.1 + d.1, p.2 + d.2).2 + (j : ℤ) * d.2)) := by
      rw [List.map_map]
      refine List.map_congr_left ?_
      intro j hj
      simp only [Function.comp_apply, pt, Prod.ext_iff]
      constructor <;> ring
    have hFb : List.map (pt p d) ((List.range cb).map (fun (j : ℕ) => -((j : ℤ) + 1))) =
        (List.range cb).map (fun (j : ℕ) => ((p.1 + -d.1, p.2 + -d.2).1 + (j : ℤ) * -d.1,
          (p.1 + -d.1, p.2 + -d.2).2 + (j : ℤ) * -d.2)) := by
      rw [List.map_map]
      refine List.map_congr_left ?_
      intro j hj
      simp only [Function.comp_apply, pt, Prod.ext_iff]
      constructor <;> ring
    have hhead : pt p d 0 = (p.1, p.2) := by simp [pt]
    rw [List.singleton_append, List.cons_append, ← hhead, ← hFf, ← hFb,
      ← List.map_append, ← List.map_cons]
    refine List.Perm.map (pt p d) ?_
    refine List.perm_of_nodup_nodup_toFinset_eq ?_ ?_ ?_
    · refine List.Nodup.cons ?_ (List.Nodup.append ?_ ?_ ?_)
      · intro h0
        rcases List.mem_append.mp h0 with h | h
        · obtain ⟨j, _, hj⟩ := List.mem_map.mp h
          omega
        · obtain ⟨j, _, hj⟩ := List.mem_map.mp h
          omega
      · exact (List.nodup_range cf).map (fun i j h => by omega)
      · exact (List.nodup_range cb).map (fun i j h => by omega)
      · intro a ha hb
        obtain ⟨j, _, hj⟩ := List.mem_map.mp ha
        obtain ⟨j', _, hj'⟩ := List.mem_map.mp hb
        omega
    · exact intRange_nodup _ _
    · refine List.toFinset.ext ?_
      intro a
      simp only [List.mem_cons, List.mem_append, List.mem_map, List.mem_range, mem_intRange]
      constructor
      · rintro (rfl | ⟨j, hj, rfl⟩ | ⟨j, hj, rfl⟩) <;> omega
      · intro h
        rcases lt_trichotomy a 0 with ha | ha | ha
        · refine Or.inr (Or.inr ⟨(-a - 1).toNat, by omega, by omega⟩)
        · exact Or.inl ha
        · refine Or.inr (Or.inl ⟨(a - 1).toNat, by omega, by omega⟩)

lemma isMaxRun_unique (b : Board) (p d : Pos) (pl : ℤ) {L L' : List Pos}
    (h : IsMaxRun b p d pl L) (h' : IsMaxRun b p d pl L') : L = L' := by
  obtain ⟨a, c, rfl, hg, hcm, ham⟩ := h
  obtain ⟨a', c', hL', hg', hcm', ham'⟩ := h'
  have hc : c = c' := by
    by_contra hne
    rcases Nat.lt_or_ge c c' with hlt | hge
    · exact hcm (hg' ((c : ℤ) + 1) (by omega) (by omega))
    · exact hcm' (hg ((c' : ℤ) + 1) (by omega) (by omega))
  have ha : a = a' := by
    by_contra hne
    rcases Nat.lt_or_ge a a' with hlt | hge
    · exact ham (hg' (-((a : ℤ) + 1)) (by omega) (by omega))
    · exact ham' (hg (-((a' : ℤ) + 1)) (by omega) (by omega))
  rw [hL', hc, ha]

/-- C2: if some axis through the last move carries a maximal contiguous
same-player run of length at least 5, `winner()` returns that player
together with the lexicographically sorted positions of exactly such a
run; if no axis reaches 5, it returns `none`. -/
theorem get_winner_line_characterization (b : Board) (p : Pos) (rest : List Pos) (pl : ℤ)
    (hmoves : b.moves = p :: rest) (hp : b.in_bounds p = true)
    (hpl : b.grid p.1 p.2 = pl) :
    ((∃ d ∈ DIRS, ∃ L, IsMaxRun b p d pl L ∧ 5 ≤ L.length) →
      ∃ d ∈ DIRS, ∃ L, IsMaxRun b p d pl L ∧ 5 ≤ L.length ∧
        ∃ l, b.get_winner_line = some (pl, l) ∧ List.Perm l L ∧ l.Sorted posLe)
    ∧ ((¬ ∃ d ∈ DIRS, ∃ L, IsMaxRun b p d pl L ∧ 5 ≤ L.length) →
        b.get_winner_line = none) := by
  have hgw : b.get_winner_line = DIRS.findSome? (fun d =>
      if 5 ≤ (collect_dir b p.1 p.2 (-d.1) (-d.2) pl
          (collect_dir b p.1 p.2 d.1 d.2 pl [(p.1, p.2)])).length then
        some (pl, (collect_dir b p.1 p.2 (-d.1) (-d.2) pl
          (collect_dir b p.1 p.2 d.1 d.2 pl [(p.1, p.2)])).insertionSort posLe)
      else none) := by
    simp only [Board.get_winner_line, hmoves, hpl]
  constructor
  · rintro ⟨d0, hd0, L0, hrun0, hlen0⟩
    obtain ⟨cf0, cb0, hlen0', hperm0, hrun0'⟩ := line_spec b hp hd0 hpl
    have hL0 : L0 = (intRange (-(cb0 : ℤ)) (cf0 : ℤ)).map (pt p d0) :=
      isMaxRun_unique b p d0 pl hrun0 hrun0'
    have hlineLen0 : 5 ≤ (collect_dir b p.1 p.2 (-d0.1) (-d0.2) pl
        (collect_dir b p.1 p.2 d0.1 d0.2 pl [(p.1, p.2)])).length := by
      rw [hlen0']
      have : L0.length = cf0 + cb0 + 1 := by
        rw [hL0, List.length_map, intRange_length]
        omega
      omega
    rcases hfs : b.get_winner_line with _ | r
    · exfalso
      have hfs' := hfs
      rw [hgw] at hfs'
      have := List.findSome?_eq_none_iff.mp hfs' d0 hd0
      rw [if_pos hlineLen0] at this
      cases this
    · have hfs' := hfs
      rw [hgw] at hfs'
      obtain ⟨d, hd, hfd⟩ := List.exists_of_findSome?_eq_some hfs'
      obtain ⟨cf, cb, hlen, hperm, hrun⟩ := line_spec b hp hd hpl
      by_cases h5 : 5 ≤ (collect_dir b p.1 p.2 (-d.1) (-d.2) pl
          (collect_dir b p.1 p.2 d.1 d.2 pl [(p.1, p.2)])).length
      · rw [if_pos h5] at hfd
        have hr : r = (pl, (collect_dir b p.1 p.2 (-d.1) (-d.2) pl
            (collect_dir b p.1 p.2 d.1 d.2 pl [(p.1, p.2)])).insertionSort posLe) :=
          (Option.some.inj hfd).symm
        refine ⟨d, hd, (intRange (-(cb : ℤ)) (cf : ℤ)).map (pt p d), hrun, ?_, ?_⟩
        · rw [List.length_map, intRange_length]
          omega
        · refine ⟨(collect_dir b p.1 p.2 (-d.1) (-d.2) pl
            (collect_dir b p.1 p.2 d.1 d.2 pl [(p.1, p.2)])).insertionSort posLe, ?_, ?_, ?_⟩
          · rw [hr]
          · exact (List.perm_insertionSort posLe _).trans hperm
          · exact List.sorted_insertionSort posLe _
      · rw [if_neg h5] at hfd
        cases hfd
  · intro hno
    rw [hgw]
    refine List.findSome?_eq_none_iff.mpr ?_
    intro d hd
    obtain ⟨cf, cb, hlen, hperm, hrun⟩ := line_spec b hp hd hpl
    have h5 : ¬ 5 ≤ (collect_dir b p.1 p.2 (-d.1) (-d.2) pl
        (collect_dir b p.1 p.2 d.1 d.2 pl [(p.1, p.2)])).length := by
      intro h5
      refine hno ⟨d, hd, (intRange (-(cb : ℤ)) (cf : ℤ)).map (pt p d), hrun, ?_⟩
      rw [List.length_map, intRange_length]
      omega
    rw [if_neg h5]

/-- A 5×5 board with five black stones across the top row, the last one
played at `(0, 4)`. -/
def c2Board : Board :=
  (placeSeq (mkBoard 5)
    [(((0 : ℤ), (0 : ℤ)), 1), (((0 : ℤ), (1 : ℤ)), 1), (((0 : ℤ), (2 : ℤ)), 1),
     (((0 : ℤ), (3 : ℤ)), 1), (((0 : ℤ), (4 : ℤ)), 1)]).1

/-- Witness for C2: the completed top row of `c2Board` is detected as a
win for player 1 with the sorted run. -/
theorem get_winner_line_characterization_witness :
    ∃ d ∈ DIRS, ∃ L, IsMaxRun c2Board ((0 : ℤ), (4 : ℤ)) d 1 L ∧ 5 ≤ L.length ∧
      ∃ l, c2Board.get_winner_line = some (1, l) ∧ List.Perm l L ∧ l.Sorted posLe := by
  refine (get_winner_line_characterization c2Board ((0 : ℤ), (4 : ℤ))
      [((0 : ℤ), (3 : ℤ)), ((0 : ℤ), (2 : ℤ)), ((0 : ℤ), (1 : ℤ)), ((0 : ℤ), (0 : ℤ))] 1
      (by decide) (by decide) (by decide)).1 ?_
  refine ⟨(0, 1), by decide,
    (intRange (-(4 : ℤ)) 0).map (pt ((0 : ℤ), (4 : ℤ)) (0, 1)), ?_, by decide⟩
  refine ⟨4, 0, rfl, ?_, by decide, by decide⟩
  intro k hk1 hk2
  have hk1' : -4 ≤ k := by exact_mod_cast hk1
  have hk2' : k ≤ 0 := by exact_mod_cast hk2
  interval_cases k <;> decide

/-- Search values: integers extended with `math.inf` (`⊤`) and
`-math.inf` (`⊥`). -/
abbrev Val := WithBot (WithTop ℤ)

/-- Embed an evaluation score into the value lattice. -/
def toVal (n : ℤ) : Val := ((n : WithTop ℤ) : Val)

/-- `SearchResult` of `src/search.py`. -/
structure SearchResult where
  move : Option Pos
  value : Val
  depth : ℕ

/-- Descending-by-score comparison used for `scored.sort(reverse=True,
key=lambda x: x[0])`; insertion sort by this relation is the stable
descending sort Python performs. -/
def scoredLe (x y : ℤ × Pos) : Prop := y.1 ≤ x.1

instance scoredLe.decRel : DecidableRel scoredLe := fun x y =>
  inferInstanceAs (Decidable (y.1 ≤ x.1))

/-- The scoring loop of `_order_moves`: place each candidate, evaluate
from the mover's perspective, undo; skip candidates whose placement
fails. -/
def omGo (side : ℤ) : Board → List Pos → List (ℤ × Pos) × Board
  | b, [] => ([], b)
  | b, m :: rest =>
    match b.place_move m side with
    | (true, b1) =>
      let s := evaluate b1 side
      let b2 := b1.undo_move
      let r := omGo side b2 rest
      ((s, m) :: r.1, r.2)
    | (false, b1) => omGo side b1 rest

/-- `_order_moves`: candidates at radius 2, pre-scored by a shallow
evaluation and sorted descending (stably), returning moves only. -/
def order_moves (b : Board) (side : ℤ) : List Pos × Board :=
  let r := omGo side b (b.generate_moves 2)
  ((r.1.insertionSort scoredLe).map Prod.snd, r.2)

/-- Result quadruple of the embedded `minimax`: value, best move, board
after the call, clock-query counter after the call. -/
abbrev MMRes := Val × Option Pos × Board × ℕ

/-- The maximizing loop of `minimax`.  `child` is the recursive call one
ply deeper; `el k` is the elapsed time at the k-th clock query and the
deadline check is `time.time() - start_time >= time_limit`, i.e.
`tl ≤ el k`.  The time check is short-circuited after `beta <= alpha`
exactly as in the source. -/
def mmLoopMax (child : Board → Val → Val → ℕ → MMRes) (pl : ℤ) (tl : ℚ) (el : ℕ → ℚ) :
    List Pos → Board → ℕ → Val → Option Pos → Val → Val → MMRes
  | [], b, k, value, best, _, _ => (value, best, b, k)
  | m :: rest, b, k, value, best, alpha, beta =>
    match b.place_move m pl with
    | (false, b1) => mmLoopMax child pl tl el rest b1 k value best alpha beta
    | (true, b1) =>
      let r := child b1 alpha beta k
      let score := r.1
      let b2 := r.2.2.1.undo_move
      let k1 := r.2.2.2
      let value1 := if value < score then score else value
      let best1 := if value < score then some m else best
      let alpha1 := max alpha value1
      if beta ≤ alpha1 then (value1, best1, b2, k1)
      else if tl ≤ el k1 then (value1, best1, b2, k1 + 1)
      else mmLoopMax child pl tl el rest b2 (k1 + 1) value1 best1 alpha1 beta

/-- The minimizing loop of `minimax`; `mover` is the opponent `-player`
who places the stones at this ply. -/
def mmLoopMin (child : Board → Val → Val → ℕ → MMRes) (mover : ℤ) (tl : ℚ) (el : ℕ → ℚ) :
    List Pos → Board → ℕ → Val → Option Pos → Val → Val → MMRes
  | [], b, k, value, best, _, _ => (value, best, b, k)
  | m :: rest, b, k, value, best, alpha, beta =>
    match b.place_move m mover with
    | (false, b1) => mmLoopMin child mover tl el rest b1 k value best alpha beta
    | (true, b1) =>
      let r := child b1 alpha beta k
      let score := r.1
      let b2 := r.2.2.1.undo_move
      let k1 := r.2.2.2
      let value1 := if score < value then score else value
      let best1 := if score < value then some m else best
      let beta1 := min beta value1
      if beta1 ≤ alpha then (value1, best1, b2, k1)
      else if tl ≤ el k1 then (value1, best1, b2, k1 + 1)
      else mmLoopMin child mover tl el rest b2 (k1 + 1) value1 best1 alpha beta1

/-- `minimax` of `src/search.py`: terminal winner check first, then the
depth-0 / full-board / deadline leaf, then the move-ordered alpha-beta
loop.  The `or` chain in the leaf test is short-circuited, so the clock
is only queried (and the counter advanced) when `depth ≠ 0` and the
board is not full. -/
def minimax (b : Board) (depth : ℕ) (alpha beta : Val) (maximizing : Bool) (pl : ℤ)
    (tl : ℚ) (el : ℕ → ℚ) (k : ℕ) : MMRes :=
  match b.get_winner, depth with
  | some w, _ => (if w = pl then (⊤ : Val) else (⊥ : Val), none, b, k)
  | none, 0 => (toVal (evaluate b pl), none, b, k)
  | none, d + 1 =>
    if b.is_full then (toVal (evaluate b pl), none, b, k)
    else if tl ≤ el k then (toVal (evaluate b pl), none, b, k + 1)
    else
      let mvs := order_moves b (if maximizing then pl else -pl)
      if maximizing then
        mmLoopMax (fun b1 a1 b2 k1 => minimax b1 d a1 b2 false pl tl el k1) pl tl el
          mvs.1 mvs.2 (k + 1) ⊥ none alpha beta
      else
        mmLoopMin (fun b1 a1 b2 k1 => minimax b1 d a1 b2 true pl tl el k1) (-pl) tl el
          mvs.1 mvs.2 (k + 1) ⊤ none alpha beta

/-- The depth loop of `iterative_deepening` over the depths `1..maxD`. -/
def idGo (pl : ℤ) (tl : ℚ) (el : ℕ → ℚ) :
    List ℕ → SearchResult → Board → ℕ → SearchResult × Board × ℕ
  | [], best, b, k => (best, b, k)
  | d :: rest, best, b, k =>
    if tl - el k ≤ 0 then (best, b, k + 1)
    else
      let r := minimax b d ⊥ ⊤ true pl tl el (k + 1)
      let best1 := match r.2.1 with
        | some m => SearchResult.mk (some m) r.1 d
        | none => best
      if r.1 = (⊤ : Val) then (best1, r.2.2.1, r.2.2.2)
      else idGo pl tl el rest best1 r.2.2.1 r.2.2.2

/-- `iterative_deepening`: run `minimax` at depths `1..maxD` within the
time budget, keeping the deepest completed move, stopping early on a
win sentinel. -/
def iterative_deepening (b : Board) (pl : ℤ) (maxD : ℕ) (tl : ℚ) (el : ℕ → ℚ) (k : ℕ) :
    SearchResult × Board × ℕ :=
  idGo pl tl el ((List.range maxD).map (fun i => i + 1)) ⟨none, ⊥, 0⟩ b k

/-- `Engine.choose_move`: iterative deepening, falling back to the first
candidate at radius 2 when no depth produced a move; `none` is the
`RuntimeError` raised when no candidate exists either. -/
def choose_move (b : Board) (pl : ℤ) (maxD : ℕ) (tl : ℚ) (el : ℕ → ℚ) (k : ℕ) :
    Option Pos × Board × ℕ :=
  let r := iterative_deepening b pl maxD tl el k
  match r.1.move with
  | some m => (some m, r.2.1, r.2.2)
  | none =>
    match r.2.1.generate_moves 2 with
    | [] => (none, r.2.1, r.2.2)
    | m :: _ => (some m, r.2.1, r.2.2)

lemma place_move_snd_of_false {b : Board} {p : Pos} {pl : ℤ} {b1 : Board}
    (h : b.place_move p pl = (false, b1)) : b1 = b := by
  unfold Board.place_move at h
  split at h
  · cases h
  · exact (congrArg Prod.snd h).symm

lemma omGo_frame (side : ℤ) : ∀ (ms : List Pos) (b : Board), (omGo side b ms).2 = b := by
  intro ms
  induction ms with
  | nil => intro b; rfl
  | cons m rest ih =>
    intro b
    rcases hpm : b.place_move m side with ⟨ok, b1⟩
    cases ok
    · have hb1 : b1 = b := place_move_snd_of_false hpm
      simp only [omGo, hpm]
      rw [ih b1, hb1]
    · have hundo : b1.undo_move = b := place_move_undo hpm
      simp only [omGo, hpm]
      rw [ih b1.undo_move, hundo]

lemma order_moves_frame (b : Board) (side : ℤ) : (order_moves b side).2 = b := by
  unfold order_moves
  exact omGo_frame side (b.generate_moves 2) b

lemma mmLoopMax_frame (child : Board → Val → Val → ℕ → MMRes)
    (hchild : ∀ b1 a1 b2 k1, (child b1 a1 b2 k1).2.2.1 = b1) (pl : ℤ) (tl : ℚ) (el : ℕ → ℚ) :
    ∀ (ms : List Pos) (b : Board) (k : ℕ) (value : Val) (best : Option Pos) (alpha beta : Val),
      (mmLoopMax child pl tl el ms b k value best alpha beta).2.2.1 = b := by
  intro ms
  induction ms with
  | nil => intro b k value best alpha beta; rfl
  | cons m rest ih =>
    intro b k value best alpha beta
    rcases hpm : b.place_move m pl with ⟨ok, b1⟩
    cases ok
    · have hb1 : b1 = b := place_move_snd_of_false hpm
      simp only [mmLoopMax, hpm]
      rw [ih b1, hb1]
    · have hundo : (child b1 alpha beta k).2.2.1.undo_move = b := by
        rw [hchild b1 alpha beta k]
        exact place_move_undo hpm
      simp only [mmLoopMax, hpm]
      repeat' split
      all_goals (first | exact hundo | (rw [ih]; exact hundo))

lemma mmLoopMin_frame (child : Board → Val → Val → ℕ → MMRes)
    (hchild : ∀ b1 a1 b2 k1, (child b1 a1 b2 k1).2.2.1 = b1) (mover : ℤ) (tl : ℚ) (el : ℕ → ℚ) :
    ∀ (ms : List Pos) (b : Board) (k : ℕ) (value : Val) (best : Option Pos) (alpha beta : Val),
      (mmLoopMin child mover tl el ms b k value best alpha beta).2.2.1 = b := by
  intro ms
  induction ms with
  | nil => intro b k value best alpha beta; rfl
  | cons m rest ih =>
    intro b k value best alpha beta
    rcases hpm : b.place_move m mover with ⟨ok, b1⟩
    cases ok
    · have hb1 : b1 = b := place_move_snd_of_false hpm
      simp only [mmLoopMin, hpm]
      rw [ih b1, hb1]
    · have hundo : (child b1 alpha beta k).2.2.1.undo_move = b := by
        rw [hchild b1 alpha beta k]
        exact place_move_undo hpm
      simp only [mmLoopMin, hpm]
      repeat' split
      all_goals (first | exact hundo | (rw [ih]; exact hundo))

lemma minimax_frame :
    ∀ (depth : ℕ) (b : Board) (alpha beta : Val) (maximizing : Bool) (pl : ℤ)
      (tl : ℚ) (el : ℕ → ℚ) (k : ℕ),
      (minimax b depth alpha beta maximizing pl tl el k).2.2.1 = b := by
  intro depth
  induction depth with
  | zero =>
    intro b alpha beta maximizing pl tl el k
    unfold minimax
    cases b.get_winner <;> rfl
  | succ d ih =>
    intro b alpha beta maximizing pl tl el k
    unfold minimax
    cases hw : b.get_winner with
    | some w => rfl
    | none =>
      simp only
      split
      · rfl
      split
      · rfl
      split
      · rw [mmLoopMax_frame _ (fun b1 a1 b2 k1 => ih b1 a1 b2 false pl tl el k1) pl tl el]
        exact order_moves_frame b _
      · rw [mmLoopMin_frame _ (fun b1 a1 b2 k1 => ih b1 a1 b2 true pl tl el k1) (-pl) tl el]
        exact order_moves_frame b _

/-- C5: a `minimax` call, move-ordering pass included, leaves the grid
and the move history exactly as they were on every exit path (terminal
return, heuristic leaf, loop completion, alpha-beta cutoff, deadline
expiry), for every oracle of elapsed times. -/
theorem minimax_preserves_board (b : Board) (depth : ℕ) (alpha beta : Val)
    (maximizing : Bool) (pl : ℤ) (tl : ℚ) (el : ℕ → ℚ) (k : ℕ) :
    (minimax b depth alpha beta maximizing pl tl el k).2.2.1 = b :=
  minimax_frame depth b alpha beta maximizing pl tl el k

/-- C6: with a winner on the board, `minimax` returns the win sentinel
for the root player (`⊤` if the winner is the root player, else `⊥`) and
no move, unchanged board and clock, whatever the depth, bounds,
fullness and deadline state. -/
theorem minimax_terminal_override (b : Board) (depth : ℕ) (alpha beta : Val)
    (maximizing : Bool) (pl : ℤ) (tl : ℚ) (el : ℕ → ℚ) (k : ℕ) (w : ℤ)
    (hw : b.get_winner = some w) :
    minimax b depth alpha beta maximizing pl tl el k =
      ((if w = pl then (⊤ : Val) else (⊥ : Val)), none, b, k) := by
  unfold minimax
  rw [hw]

/-- A 5×5 board with five black stones down the first column, the last
one played at `(4, 0)`. -/
def c6Board : Board :=
  (placeSeq (mkBoard 5)
    [(((0 : ℤ), (0 : ℤ)), 1), (((1 : ℤ), (0 : ℤ)), 1), (((2 : ℤ), (0 : ℤ)), 1),
     (((3 : ℤ), (0 : ℤ)), 1), (((4 : ℤ), (0 : ℤ)), 1)]).1

/-- Witness for C6: on the won board `c6Board` the search returns `⊥`
for root player `-1` immediately, even at nonzero depth with an expired
deadline oracle. -/
theorem minimax_terminal_override_witness :
    minimax c6Board 3 ⊥ ⊤ true (-1) 0 (fun _ => 37) 5 = ((⊥ : Val), none, c6Board, 5) := by
  have h := minimax_terminal_override c6Board 3 ⊥ ⊤ true (-1) 0 (fun _ => 37) 5 1 (by decide)
  simpa using h

/-- The Board invariant maintained by `place`/`undo`: history entries are
in-bounds occupied cells, and every occupied cell is in the history. -/
def wellFormed (b : Board) : Bool :=
  b.moves.all (fun p => b.in_bounds p && !(b.is_empty p)) &&
  (intRange 0 ((b.size : ℤ) - 1)).all (fun x =>
    (intRange 0 ((b.size : ℤ) - 1)).all (fun y =>
      b.is_empty (x, y) || decide ((x, y) ∈ b.moves)))

lemma wf_mem_moves {b : Board} (h : wellFormed b = true) {p : Pos} (hp : p ∈ b.moves) :
    b.in_bounds p = true ∧ b.is_empty p = false := by
  have h1 := (Bool.and_eq_true _ _).mp h |>.1
  have := List.all_eq_true.mp h1 p hp
  rcases (Bool.and_eq_true _ _).mp this with ⟨ha, hb⟩
  exact ⟨ha, by simpa using hb⟩

lemma wf_stone_mem {b : Board} (h : wellFormed b = true) {q : Pos}
    (hin : b.in_bounds q = true) (hocc : b.is_empty q = false) : q ∈ b.moves := by
  have h2 := (Bool.and_eq_true _ _).mp h |>.2
  have hb : 0 ≤ q.1 ∧ q.1 < (b.size : ℤ) ∧ 0 ≤ q.2 ∧ q.2 < (b.size : ℤ) := by
    simpa [Board.in_bounds] using hin
  have hx := List.all_eq_true.mp h2 q.1 (mem_intRange.mpr (by omega))
  have hy := List.all_eq_true.mp hx q.2 (mem_intRange.mpr (by omega))
  rcases (Bool.or_eq_true _ _).mp hy with he | hm
  · rw [show ((q.1, q.2) : Pos) = q from rfl] at he
    rw [he] at hocc
    cases hocc
  · have := of_decide_eq_true hm
    rwa [show ((q.1, q.2) : Pos) = q from rfl] at this

lemma is_full_false_iff (b : Board) :
    b.is_full = false ↔ ∃ q : Pos, b.in_bounds q = true ∧ b.is_empty q = true := by
  constructor
  · intro h
    by_contra hno
    push_neg at hno
    have : b.is_full = true := by
      unfold Board.is_full
      refine List.all_eq_true.mpr ?_
      intro x hx
      refine List.all_eq_true.mpr ?_
      intro y hy
      have hx' := mem_intRange.mp hx
      have hy' := mem_intRange.mp hy
      have hin : b.in_bounds (x, y) = true := by
        simp only [Board.in_bounds, decide_eq_true_eq]
        refine ⟨hx'.1, ?_, hy'.1, ?_⟩ <;> omega
      have hne := hno (x, y) hin
      rw [Bool.not_eq_true']
      exact (Bool.not_eq_true _) ▸ hne
    rw [this] at h
    cases h
  · rintro ⟨q, hin, hemp⟩
    cases hf : b.is_full with
    | false => rfl
    | true =>
      exfalso
      unfold Board.is_full at hf
      have hb : 0 ≤ q.1 ∧ q.1 < (b.size : ℤ) ∧ 0 ≤ q.2 ∧ q.2 < (b.size : ℤ) := by
        simpa [Board.in_bounds] using hin
      have hx := List.all_eq_true.mp hf q.1 (mem_intRange.mpr (by omega))
      have hy := List.all_eq_true.mp hx q.2 (mem_intRange.mpr (by omega))
      rw [show ((q.1, q.2) : Pos) = q from rfl] at hy
      rw [hemp] at hy
      cases hy

/-- One king-move step of the first coordinate from `a` toward `c`. -/
def stepTo (a c : ℤ) : ℤ :=
  if a < c then a + 1 else if c < a then a - 1 else a

/-- On a board holding both a stone and an empty cell, some stone has an
empty cell at Chebyshev distance at most 1 (walking from the stone toward
the empty cell, the first empty cell met is adjacent to a stone). -/
lemma near_pair (b : Board) :
    ∀ (n : ℕ) (s e : Pos),
      (e.1 - s.1).natAbs ≤ n → (e.2 - s.2).natAbs ≤ n →
      b.in_bounds s = true → b.is_empty s = false →
      b.in_bounds e = true → b.is_empty e = true →
      ∃ s1 e1 : Pos, b.in_bounds s1 = true ∧ b.is_empty s1 = false ∧
        b.in_bounds e1 = true ∧ b.is_empty e1 = true ∧
        (e1.1 - s1.1).natAbs ≤ 1 ∧ (e1.2 - s1.2).natAbs ≤ 1 := by
  intro n
  induction n with
  | zero =>
    intro s e h1 h2 hs1 hs2 he1 he2
    exact ⟨s, e, hs1, hs2, he1, he2, by omega, by omega⟩
  | succ m ih =>
    intro s e h1 h2 hs1 hs2 he1 he2
    by_cases hle : (e.1 - s.1).natAbs ≤ 1 ∧ (e.2 - s.2).natAbs ≤ 1
    · exact ⟨s, e, hs1, hs2, he1, he2, hle.1, hle.2⟩
    · have hsb : 0 ≤ s.1 ∧ s.1 < (b.size : ℤ) ∧ 0 ≤ s.2 ∧ s.2 < (b.size : ℤ) := by
        simpa [Board.in_bounds] using hs1
      have heb : 0 ≤ e.1 ∧ e.1 < (b.size : ℤ) ∧ 0 ≤ e.2 ∧ e.2 < (b.size : ℤ) := by
        simpa [Board.in_bounds] using he1
      have hm1b : b.in_bounds (stepTo s.1 e.1, stepTo s.2 e.2) = true := by
        simp only [Board.in_bounds, decide_eq_true_eq, stepTo]
        split_ifs <;> omega
      have hd1 : (e.1 - stepTo s.1 e.1).natAbs ≤ m := by
        simp only [stepTo]
        split_ifs <;> omega
      have hd2 : (e.2 - stepTo s.2 e.2).natAbs ≤ m := by
        simp only [stepTo]
        split_ifs <;> omega
      by_cases hm1 : b.is_empty (stepTo s.1 e.1, stepTo s.2 e.2) = true
      · refine ⟨s, (stepTo s.1 e.1, stepTo s.2 e.2), hs1, hs2, hm1b, hm1, ?_, ?_⟩ <;>
          (simp only [stepTo]; split_ifs <;> omega)
      · have hm1' : b.is_empty (stepTo s.1 e.1, stepTo s.2 e.2) = false :=
          Bool.not_eq_true _ ▸ hm1
        exact ih (stepTo s.1 e.1, stepTo s.2 e.2) e hd1 hd2 hm1b hm1' he1 he2

/-- On a well-formed non-full board, `generate_moves` at radius 2 is
never empty: an empty board yields the centre, and otherwise some empty
cell adjacent to a stone lies inside the expanded bounding box. -/
lemma generate_moves_ne_nil (b : Board) (hwf : wellFormed b = true)
    (hnf : b.is_full = false) : b.generate_moves 2 ≠ [] := by
  rcases hmv : b.moves with _ | ⟨m, rest⟩
  · rw [(generate_moves_characterization b 2).1 hmv]
    simp
  · obtain ⟨e0, he0in, he0emp⟩ := (is_full_false_iff b).mp hnf
    have hm := wf_mem_moves hwf (hmv ▸ List.mem_cons_self m rest)
    obtain ⟨s1, e1, hs1in, hs1occ, he1in, he1emp, hc1, hc2⟩ :=
      near_pair b ((e0.1 - m.1).natAbs + (e0.2 - m.2).natAbs) m e0
        (by omega) (by omega) hm.1 hm.2 he0in he0emp
    have hs1mem : s1 ∈ b.moves := wf_stone_mem hwf hs1in hs1occ
    have hs1b : 0 ≤ s1.1 ∧ s1.1 < (b.size : ℤ) ∧ 0 ≤ s1.2 ∧ s1.2 < (b.size : ℤ) := by
      simpa [Board.in_bounds] using hs1in
    have he1b : 0 ≤ e1.1 ∧ e1.1 < (b.size : ℤ) ∧ 0 ≤ e1.2 ∧ e1.2 < (b.size : ℤ) := by
      simpa [Board.in_bounds] using he1in
    have hminx : movesMinX m rest ≤ s1.1 := by
      rcases List.mem_cons.mp (hmv ▸ hs1mem) with rfl | hmem
      · exact foldl_min_le_init _ _
      · exact foldl_min_le_of_mem _ (List.mem_map.mpr ⟨s1, hmem, rfl⟩)
    have hmaxx : s1.1 ≤ movesMaxX m rest := by
      rcases List.mem_cons.mp (hmv ▸ hs1mem) with rfl | hmem
      · exact le_foldl_max_init _ _
      · exact le_foldl_max_of_mem _ (List.mem_map.mpr ⟨s1, hmem, rfl⟩)
    have hminy : movesMinY m rest ≤ s1.2 := by
      rcases List.mem_cons.mp (hmv ▸ hs1mem) with rfl | hmem
      · exact foldl_min_le_init _ _
      · exact foldl_min_le_of_mem _ (List.mem_map.mpr ⟨s1, hmem, rfl⟩)
    have hmaxy : s1.2 ≤ movesMaxY m rest := by
      rcases List.mem_cons.mp (hmv ▸ hs1mem) with rfl | hmem
      · exact le_foldl_max_init _ _
      · exact le_foldl_max_of_mem _ (List.mem_map.mpr ⟨s1, hmem, rfl⟩)
    have hne : s1 ≠ e1 := by
      intro hcontra
      rw [hcontra, he1emp] at hs1occ
      cases hs1occ
    have hmem : e1 ∈ b.generate_moves 2 := by
      refine ((generate_moves_characterization b 2).2 m rest hmv e1).mpr
        ⟨he1emp, ⟨?_, ?_, ?_, ?_⟩, ⟨s1, hs1in, hs1occ, hne, ?_⟩⟩
      · omega
      · omega
      · omega
      · omega
      · simp only [chebDist]
        rw [Nat.cast_max]
        refine max_le ?_ ?_ <;> omega
    exact List.ne_nil_of_mem hmem

lemma generate_moves_mem_legal (b : Board) (hwf : wellFormed b = true)
    (hnf : b.is_full = false) :
    ∀ m ∈ b.generate_moves 2, b.in_bounds m = true ∧ b.is_empty m = true := by
  intro m hmem
  rcases hmv : b.moves with _ | ⟨hd, rest⟩
  · rw [(generate_moves_characterization b 2).1 hmv] at hmem
    have hmc : m = (((b.size / 2 : ℕ) : ℤ), ((b.size / 2 : ℕ) : ℤ)) := by
      simpa using hmem
    obtain ⟨q, hqin, _⟩ := (is_full_false_iff b).mp hnf
    have hq : 0 ≤ q.1 ∧ q.1 < (b.size : ℤ) ∧ 0 ≤ q.2 ∧ q.2 < (b.size : ℤ) := by
      simpa [Board.in_bounds] using hqin
    have hin : b.in_bounds m = true := by
      rw [hmc]
      simp only [Board.in_bounds, decide_eq_true_eq]
      refine ⟨by omega, ?_, by omega, ?_⟩ <;> omega
    refine ⟨hin, ?_⟩
    cases hemp : b.is_empty m with
    | true => rfl
    | false =>
      exfalso
      have := wf_stone_mem hwf hin hemp
      rw [hmv] at this
      cases this
  · have := ((generate_moves_characterization b 2).2 hd rest hmv m).mp hmem
    obtain ⟨hemp, ⟨h1, h2, h3, h4⟩, _⟩ := this
    refine ⟨?_, hemp⟩
    simp only [Board.in_bounds, decide_eq_true_eq]
    refine ⟨by omega, by omega, by omega, by omega⟩

lemma place_succeeds_of_legal (b : Board) (m : Pos) (pl : ℤ)
    (h1 : b.in_bounds m = true) (h2 : b.is_empty m = true) :
    (b.place_move m pl).1 = true := by
  unfold Board.place_move
  rw [if_pos (by simp [h1, h2])]

lemma idGo_frame (pl : ℤ) (tl : ℚ) (el : ℕ → ℚ) :
    ∀ (ds : List ℕ) (best : SearchResult) (b : Board) (k : ℕ),
      (idGo pl tl el ds best b k).2.1 = b := by
  intro ds
  induction ds with
  | nil => intro best b k; rfl
  | cons d rest ih =>
    intro best b k
    simp only [idGo]
    split
    · rfl
    · split
      · exact minimax_frame d b ⊥ ⊤ true pl tl el (k + 1)
      · rw [ih]
        exact minimax_frame d b ⊥ ⊤ true pl tl el (k + 1)

lemma iterative_deepening_frame (b : Board) (pl : ℤ) (maxD : ℕ) (tl : ℚ) (el : ℕ → ℚ)
    (k : ℕ) : (iterative_deepening b pl maxD tl el k).2.1 = b :=
  idGo_frame pl tl el _ _ b k

lemma idGo_zero (pl : ℤ) (el : ℕ → ℚ) (hel : ∀ j, 0 ≤ el j) :
    ∀ (ds : List ℕ) (best : SearchResult) (b : Board) (k : ℕ),
      (idGo pl 0 el ds best b k).1 = best ∧ (idGo pl 0 el ds best b k).2.1 = b := by
  intro ds best b k
  cases ds with
  | nil => exact ⟨rfl, rfl⟩
  | cons d rest =>
    simp [idGo, hel k]

/-- C8: with a zero time budget, on any well-formed non-full board the
engine still returns a legal move: the deepening loop ends with no move
and `choose_move` falls back to the first radius-2 candidate, whose
placement succeeds. -/
theorem choose_move_zero_time_fallback (b : Board) (pl : ℤ) (maxD : ℕ) (el : ℕ → ℚ)
    (hwf : wellFormed b = true) (hnf : b.is_full = false) (hel : ∀ j, 0 ≤ el j) :
    ∃ m, (choose_move b pl maxD 0 el 0).1 = some m ∧
      (b.generate_moves 2).head? = some m ∧ (b.place_move m pl).1 = true := by
  have hid := idGo_zero pl el hel ((List.range maxD).map (fun i => i + 1)) ⟨none, ⊥, 0⟩ b 0
  rcases hgm : b.generate_moves 2 with _ | ⟨m, ms⟩
  · exact absurd hgm (generate_moves_ne_nil b hwf hnf)
  · refine ⟨m, ?_, rfl, ?_⟩
    · have hmove : (iterative_deepening b pl maxD 0 el 0).1.move = none := by
        unfold iterative_deepening
        rw [hid.1]
      have hboard : (iterative_deepening b pl maxD 0 el 0).2.1 = b := by
        unfold iterative_deepening
        exact hid.2
      simp only [choose_move, hmove, hboard, hgm]
    · have hlegal := generate_moves_mem_legal b hwf hnf m (by rw [hgm]; exact List.mem_cons_self m ms)
      exact place_succeeds_of_legal b m pl hlegal.1 hlegal.2

/-- Witness for C8: on the untouched 3×3 board with a zero budget the
engine falls back to the centre, a legal move. -/
theorem choose_move_zero_time_fallback_witness :
    ∃ m, (choose_move (mkBoard 3) 1 4 0 (fun _ => 0) 0).1 = some m ∧
      ((mkBoard 3).generate_moves 2).head? = some m ∧
      ((mkBoard 3).place_move m 1).1 = true :=
  choose_move_zero_time_fallback (mkBoard 3) 1 4 (fun _ => 0) (by decide) (by decide)
    (fun _ => le_refl 0)

/-- C10: on a well-formed board with at least one empty cell, the
radius-2 candidate list is non-empty and `choose_move` never reaches its
no-moves error branch, whatever the player, limits, clock oracle and
counter. -/
theorem choose_move_no_error (b : Board) (hwf : wellFormed b = true)
    (hnf : b.is_full = false) :
    b.generate_moves 2 ≠ [] ∧
    ∀ (pl : ℤ) (maxD : ℕ) (tl : ℚ) (el : ℕ → ℚ) (k : ℕ),
      (choose_move b pl maxD tl el k).1 ≠ none := by
  refine ⟨generate_moves_ne_nil b hwf hnf, ?_⟩
  intro pl maxD tl el k
  have hb : (iterative_deepening b pl maxD tl el k).2.1 = b :=
    iterative_deepening_frame b pl maxD tl el k
  rcases hmv0 : (iterative_deepening b pl maxD tl el k).1.move with _ | m
  · rcases hgm : (iterative_deepening b pl maxD tl el k).2.1.generate_moves 2 with _ | ⟨m, ms⟩
    · exfalso
      rw [hb] at hgm
      exact generate_moves_ne_nil b hwf hnf hgm
    · simp only [choose_move, hmv0, hgm]
      intro h
      cases h
  · simp only [choose_move, hmv0]
    intro h
    cases h

/-- Witness for C10: the untouched 1×1 board has a candidate and the
engine returns a move. -/
theorem choose_move_no_error_witness :
    (mkBoard 1).generate_moves 2 ≠ [] ∧
    (choose_move (mkBoard 1) 1 4 2 (fun _ => 0) 0).1 ≠ none := by
  have h := choose_move_no_error (mkBoard 1) (by decide) (by decide)
  exact ⟨h.1, h.2 1 4 2 (fun _ => 0) 0⟩

/-- An encoded line of length `len` that is empty except for a block of
`c` own stones starting at offset `a`. -/
def blockLine (len a c : ℕ) : List ℕ :=
  (List.range len).map (fun t => if a ≤ t ∧ t < a + c then 1 else 0)

lemma findFromAux_none {p : List ℕ} :
    ∀ {s' : List ℕ} {i0 : ℕ}, findFromAux p s' i0 = none →
      ∀ k, p.isPrefixOf (s'.drop k) = false := by
  intro s'
  induction s' with
  | nil =>
    intro i0 h k
    simp only [findFromAux] at h
    rcases hp : p.isPrefixOf ([] : List ℕ) with _ | _
    · rw [List.drop_nil]
      exact hp
    · rw [if_pos hp] at h
      cases h
  | cons a t ih =>
    intro i0 h k
    simp only [findFromAux] at h
    rcases hp : p.isPrefixOf (a :: t) with _ | _
    · rw [if_neg (by simp [hp])] at h
      match k with
      | 0 => exact hp
      | k + 1 => exact ih h k
    · rw [if_pos hp] at h
      cases h

lemma findFromAux_some {p : List ℕ} :
    ∀ {s' : List ℕ} {i0 j : ℕ}, findFromAux p s' i0 = some j →
      i0 ≤ j ∧ p.isPrefixOf (s'.drop (j - i0)) = true := by
  intro s'
  induction s' with
  | nil =>
    intro i0 j h
    simp only [findFromAux] at h
    rcases hp : p.isPrefixOf ([] : List ℕ) with _ | _
    · rw [if_neg (by simp [hp])] at h
      cases h
    · rw [if_pos hp] at h
      have hj : i0 = j := Option.some.inj h
      subst hj
      rw [Nat.sub_self]
      exact ⟨le_refl i0, hp⟩
  | cons a t ih =>
    intro i0 j h
    simp only [findFromAux] at h
    rcases hp : p.isPrefixOf (a :: t) with _ | _
    · rw [if_neg (by simp [hp])] at h
      obtain ⟨h1, h2⟩ := ih h
      refine ⟨by omega, ?_⟩
      have hk : j - i0 = (j - (i0 + 1)) + 1 := by omega
      rw [hk]
      exact h2
    · rw [if_pos hp] at h
      have hj : i0 = j := Option.some.inj h
      subst hj
      rw [Nat.sub_self]
      exact ⟨le_refl i0, hp⟩

lemma findFromAux_isSome {p : List ℕ} :
    ∀ {s' : List ℕ} {k i0 : ℕ}, p.isPrefixOf (s'.drop k) = true →
      ∃ j, findFromAux p s' i0 = some j := by
  intro s'
  induction s' with
  | nil =>
    intro k i0 h
    rw [List.drop_nil] at h
    refine ⟨i0, ?_⟩
    simp only [findFromAux]
    rw [if_pos h]
  | cons a t ih =>
    intro k i0 h
    rcases hp : p.isPrefixOf (a :: t) with _ | _
    · match k with
      | 0 =>
        rw [List.drop_zero] at h
        rw [h] at hp
        cases hp
      | k + 1 =>
        rw [List.drop_succ_cons] at h
        obtain ⟨j, hj⟩ := @ih k (i0 + 1) h
        refine ⟨j, ?_⟩
        simp only [findFromAux]
        rw [if_neg (by simp [hp])]
        exact hj
    · refine ⟨i0, ?_⟩
      simp only [findFromAux]
      rw [if_pos hp]

lemma findFrom_none_iff_aux {s p : List ℕ} {start : ℕ}
    (h : findFrom s p start = none) :
    ∀ i, start ≤ i → p.isPrefixOf (s.drop i) = false := by
  intro i hi
  have h2 := findFromAux_none h (i - start)
  rw [List.drop_drop] at h2
  have he : start + (i - start) = i := by omega
  rwa [he] at h2

lemma findFrom_some_occ {s p : List ℕ} {start j : ℕ}
    (h : findFrom s p start = some j) :
    start ≤ j ∧ p.isPrefixOf (s.drop j) = true := by
  obtain ⟨h1, h2⟩ := findFromAux_some h
  refine ⟨h1, ?_⟩
  rw [List.drop_drop] at h2
  have he : start + (j - start) = j := by omega
  rwa [he] at h2

lemma findFrom_isSome {s p : List ℕ} {i start : ℕ} (hs : start ≤ i)
    (h : p.isPrefixOf (s.drop i) = true) :
    ∃ j, findFrom s p start = some j := by
  have h' : p.isPrefixOf ((s.drop start).drop (i - start)) = true := by
    rw [List.drop_drop]
    have he : start + (i - start) = i := by omega
    rwa [he]
  exact findFromAux_isSome h'

/-- No occurrence of the pattern anywhere in the line. -/
def noOcc (s p : List ℕ) : Prop := ∀ i, p.isPrefixOf (s.drop i) = false

lemma scoreGo_eq_zero {s p : List ℕ} (h : noOcc s p) (v : ℕ) :
    ∀ fuel idx, scoreGo p v s idx fuel = 0 := by
  intro fuel idx
  match fuel with
  | 0 => rfl
  | fuel + 1 =>
    simp only [scoreGo]
    rcases hf : findFrom s p idx with _ | j
    · rfl
    · have := (findFrom_some_occ hf).2
      rw [h j] at this
      cases this

lemma scoreGo_le_of_unique {s p : List ℕ}
    (h : ∀ i i', p.isPrefixOf (s.drop i) = true → p.isPrefixOf (s.drop i') = true → i = i')
    (v : ℕ) : ∀ fuel idx, scoreGo p v s idx fuel ≤ v := by
  intro fuel idx
  match fuel with
  | 0 => exact Nat.zero_le v
  | fuel + 1 =>
    simp only [scoreGo]
    rcases hf : findFrom s p idx with _ | j
    · exact Nat.zero_le v
    · obtain ⟨hj1, hj2⟩ := findFrom_some_occ hf
      show v + scoreGo p v s (j + 1) fuel ≤ v
      have hrest : scoreGo p v s (j + 1) fuel = 0 := by
        match fuel with
        | 0 => rfl
        | fuel + 1 =>
          simp only [scoreGo]
          rcases hf2 : findFrom s p (j + 1) with _ | j2
          · rfl
          · exfalso
            obtain ⟨hj21, hj22⟩ := findFrom_some_occ hf2
            have := h j2 j hj22 hj2
            omega
      omega

lemma scoreGo_ge_of_occ {s p : List ℕ} {i : ℕ} (h : p.isPrefixOf (s.drop i) = true)
    (v : ℕ) : ∀ fuel, 1 ≤ fuel → v ≤ scoreGo p v s 0 fuel := by
  intro fuel hfuel
  match fuel, hfuel with
  | fuel + 1, _ =>
    simp only [scoreGo]
    obtain ⟨j, hj⟩ := findFrom_isSome (Nat.zero_le i) h
    rw [hj]
    exact Nat.le_add_right v _

lemma count_ge_two_of_occ {s p : List ℕ} {i : ℕ}
    (h : p.isPrefixOf (s.drop i) = true) : p.count 1 ≤ s.count 1 := by
  have h1 : p <+: s.drop i := List.isPrefixOf_iff_prefix.mp h
  calc p.count 1 ≤ (s.drop i).count 1 := h1.sublist.count_le 1
    _ ≤ s.count 1 := (List.drop_sublist i s).count_le 1

/-- A line containing at most one own stone scores zero: every pattern
has at least two `1` symbols. -/
lemma score_zero_of_count_le_one {s : List ℕ} (h : s.count 1 ≤ 1) :
    score_encoded_line s = 0 := by
  unfold score_encoded_line
  refine List.sum_eq_zero ?_
  intro x hx
  obtain ⟨pv, hpv, rfl⟩ := List.mem_map.mp hx
  have h2 : 2 ≤ pv.1.count 1 := by
    have : ∀ q ∈ PATTERN_SCORES, 2 ≤ q.1.count 1 := by decide
    exact this pv hpv
  refine scoreGo_eq_zero ?_ pv.2 _ 0
  intro i
  rcases hp : pv.1.isPrefixOf (s.drop i) with _ | _
  · rfl
  · have := count_ge_two_of_occ hp
    omega

lemma eq_ite_one {P : Prop} [Decidable P] (h : (1 : ℕ) = if P then 1 else 0) : P := by
  by_contra hP
  rw [if_neg hP] at h
  cases h

lemma eq_ite_zero {P : Prop} [Decidable P] (h : (0 : ℕ) = if P then 1 else 0) : ¬ P := by
  intro hP
  rw [if_pos hP] at h
  cases h

lemma eq_ite_two {P : Prop} [Decidable P] (h : (2 : ℕ) = if P then 1 else 0) : False := by
  by_cases hP : P
  · rw [if_pos hP] at h
    cases h
  · rw [if_neg hP] at h
    cases h

lemma blockLine_length (len a c : ℕ) : (blockLine len a c).length = len := by
  simp [blockLine]

/-- Pointwise description of a pattern occurrence inside a block line. -/
lemma block_occ {len a c i : ℕ} {p : List ℕ} (hp : p ≠ [])
    (hocc : p.isPrefixOf ((blockLine len a c).drop i) = true) :
    i + p.length ≤ len ∧
    ∀ j, j < p.length → p.getD j 0 = if a ≤ i + j ∧ i + j < a + c then 1 else 0 := by
  have h1 : p <+: (blockLine len a c).drop i := List.isPrefixOf_iff_prefix.mp hocc
  have hlen : p.length ≤ len - i := by
    have := h1.length_le
    rwa [List.length_drop, blockLine_length] at this
  have hpos : 0 < p.length := List.length_pos.mpr hp
  refine ⟨by omega, ?_⟩
  intro j hj
  have hjlt : j < ((blockLine len a c).drop i).length := by
    rw [List.length_drop, blockLine_length]
    omega
  have hij : i + j < (blockLine len a c).length := by
    rw [blockLine_length]
    omega
  have h2 : p[j] = ((blockLine len a c).drop i)[j] := h1.getElem hj
  have h3 : ((blockLine len a c).drop i)[j] = (blockLine len a c)[i + j] :=
    List.getElem_drop _
  have h4 : (blockLine len a c)[i + j] = if a ≤ i + j ∧ i + j < a + c then 1 else 0 := by
    simp [blockLine]
  have h5 : p.getD j 0 = p[j] := by
    simp [List.getD_eq_getElem?_getD, List.getElem?_eq_getElem hj]
  rw [h5, h2, h3, h4]

/-- A pattern containing the opponent symbol `2` never occurs in a block
line. -/
lemma noOcc_of_two {p : List ℕ} (j : ℕ) (hj : j < p.length) (h2 : p.getD j 0 = 2)
    (hp : p ≠ []) (len a c : ℕ) : noOcc (blockLine len a c) p := by
  intro i
  rcases hocc : p.isPrefixOf ((blockLine len a c).drop i) with _ | _
  · rfl
  · exfalso
    have := (block_occ hp hocc).2 j hj
    rw [h2] at this
    exact eq_ite_two this

/-- A pattern with `1`s spread at least `c` apart never occurs in a block
line with block width `c`. -/
lemma noOcc_of_spread {p : List ℕ} (j1 j2 : ℕ) (h1 : p.getD j1 0 = 1)
    (h2 : p.getD j2 0 = 1) (hj2 : j2 < p.length) (hj1 : j1 < p.length)
    (hp : p ≠ []) (len a : ℕ) {c : ℕ} (hspan : c + j1 ≤ j2) :
    noOcc (blockLine len a c) p := by
  intro i
  rcases hocc : p.isPrefixOf ((blockLine len a c).drop i) with _ | _
  · rfl
  · exfalso
    have ha := (block_occ hp hocc).2 j1 hj1
    have hb := (block_occ hp hocc).2 j2 hj2
    rw [h1] at ha
    rw [h2] at hb
    have ha' := eq_ite_one ha
    have hb' := eq_ite_one hb
    omega

/-- A pattern with a `0` strictly between two `1`s never occurs in a
block line (the block is one contiguous interval). -/
lemma noOcc_of_sandwich {p : List ℕ} (j1 j2 j3 : ℕ) (h1 : p.getD j1 0 = 1)
    (h2 : p.getD j2 0 = 0) (h3 : p.getD j3 0 = 1)
    (ho1 : j1 < j2) (ho2 : j2 < j3) (hj3 : j3 < p.length)
    (hp : p ≠ []) (len a c : ℕ) : noOcc (blockLine len a c) p := by
  intro i
  rcases hocc : p.isPrefixOf ((blockLine len a c).drop i) with _ | _
  · rfl
  · exfalso
    have ha := (block_occ hp hocc).2 j1 (by omega)
    have hb := (block_occ hp hocc).2 j2 (by omega)
    have hc := (block_occ hp hocc).2 j3 hj3
    rw [h1] at ha
    rw [h2] at hb
    rw [h3] at hc
    have ha' := eq_ite_one ha
    have hb' := eq_ite_zero hb
    have hc' := eq_ite_one hc
    rw [Decidable.not_and_iff_or_not] at hb'
    omega

/-- A pattern whose `1`s are flanked by `0`s at distance at most the
block width never occurs in a block line: the block would have to be
strictly inside the flanks, too short on one side. -/
lemma noOcc_of_flank {p : List ℕ} (z1 z2 : ℕ) (hz1 : p.getD z1 0 = 0)
    (ho1 : p.getD (z1 + 1) 0 = 1) (ho2 : p.getD (z2 - 1) 0 = 1)
    (hz2 : p.getD z2 0 = 0) (horder : z1 + 1 < z2) (hlen : z2 < p.length)
    (hp : p ≠ []) (len a : ℕ) {c : ℕ} (hspan : z2 ≤ z1 + c) :
    noOcc (blockLine len a c) p := by
  intro i
  rcases hocc : p.isPrefixOf ((blockLine len a c).drop i) with _ | _
  · rfl
  · exfalso
    have ha := (block_occ hp hocc).2 z1 (by omega)
    have hb := (block_occ hp hocc).2 (z1 + 1) (by omega)
    have hc := (block_occ hp hocc).2 (z2 - 1) (by omega)
    have hd := (block_occ hp hocc).2 z2 hlen
    rw [hz1] at ha
    rw [ho1] at hb
    rw [ho2] at hc
    rw [hz2] at hd
    have ha' := eq_ite_zero ha
    have hb' := eq_ite_one hb
    have hc' := eq_ite_one hc
    have hd' := eq_ite_zero hd
    rw [Decidable.not_and_iff_or_not] at ha' hd'
    omega

/-- In a width-4 block line, `011110` can occur at one index only. -/
lemma occ_011110_unique (len a : ℕ) :
    ∀ i i', ([0, 1, 1, 1, 1, 0] : List ℕ).isPrefixOf ((blockLine len a 4).drop i) = true →
      ([0, 1, 1, 1, 1, 0] : List ℕ).isPrefixOf ((blockLine len a 4).drop i') = true →
      i = i' := by
  have key : ∀ k, ([0, 1, 1, 1, 1, 0] : List ℕ).isPrefixOf ((blockLine len a 4).drop k) = true →
      k + 1 = a := by
    intro k hk
    have ha := (block_occ (by simp) hk).2 1 (by norm_num)
    have hb := (block_occ (by simp) hk).2 4 (by norm_num)
    have ha' : (1 : ℕ) = if a ≤ k + 1 ∧ k + 1 < a + 4 then 1 else 0 := ha
    have hb' : (1 : ℕ) = if a ≤ k + 4 ∧ k + 4 < a + 4 then 1 else 0 := hb
    have ha'' := eq_ite_one ha'
    have hb'' := eq_ite_one hb'
    omega
  intro i i' h h'
  have h1 := key i h
  have h2 := key i' h'
  omega

/-- A line that is empty except for a contiguous block of exactly four
own stones scores at most 10000 (the open-four pattern, at most once; no
other pattern matches such a line). -/
lemma score_block4_le (len a : ℕ) : score_encoded_line (blockLine len a 4) ≤ 10000 := by
  have e1 := scoreGo_eq_zero
    (noOcc_of_spread (p := [1, 1, 1, 1, 1]) 0 4 rfl rfl (by decide) (by decide) (by decide)
      len a (c := 4) (by decide)) 100000
  have e3 := scoreGo_eq_zero
    (noOcc_of_two (p := [2, 1, 1, 1, 1, 0]) 0 (by decide) rfl (by decide) len a 4) 5000
  have e4 := scoreGo_eq_zero
    (noOcc_of_two (p := [1, 1, 1, 1, 0, 2]) 5 (by decide) rfl (by decide) len a 4) 5000
  have e5 := scoreGo_eq_zero
    (noOcc_of_sandwich (p := [1, 0, 1, 1, 1]) 0 1 2 rfl rfl rfl (by decide) (by decide)
      (by decide) (by decide) len a 4) 5000
  have e6 := scoreGo_eq_zero
    (noOcc_of_sandwich (p := [1, 1, 0, 1, 1]) 1 2 3 rfl rfl rfl (by decide) (by decide)
      (by decide) (by decide) len a 4) 5000
  have e7 := scoreGo_eq_zero
    (noOcc_of_sandwich (p := [1, 1, 1, 0, 1]) 2 3 4 rfl rfl rfl (by decide) (by decide)
      (by decide) (by decide) len a 4) 5000
  have e8 := scoreGo_eq_zero
    (noOcc_of_flank (p := [0, 1, 1, 1, 0, 0]) 0 4 rfl rfl rfl rfl (by decide) (by decide)
      (by decide) len a (c := 4) (by decide)) 1000
  have e9 := scoreGo_eq_zero
    (noOcc_of_flank (p := [0, 0, 1, 1, 1, 0]) 1 5 rfl rfl rfl rfl (by decide) (by decide)
      (by decide) len a (c := 4) (by decide)) 1000
  have e10 := scoreGo_eq_zero
    (noOcc_of_sandwich (p := [0, 1, 1, 0, 1, 0]) 2 3 4 rfl rfl rfl (by decide) (by decide)
      (by decide) (by decide) len a 4) 1000
  have e11 := scoreGo_eq_zero
    (noOcc_of_sandwich (p := [0, 1, 0, 1, 1, 0]) 1 2 3 rfl rfl rfl (by decide) (by decide)
      (by decide) (by decide) len a 4) 1000
  have e12 := scoreGo_eq_zero
    (noOcc_of_two (p := [0, 0, 1, 1, 1, 2]) 5 (by decide) rfl (by decide) len a 4) 200
  have e13 := scoreGo_eq_zero
    (noOcc_of_two (p := [0, 1, 0, 1, 1, 2]) 5 (by decide) rfl (by decide) len a 4) 200
  have e14 := scoreGo_eq_zero
    (noOcc_of_two (p := [0, 1, 1, 0, 1, 2]) 5 (by decide) rfl (by decide) len a 4) 200
  have e15 := scoreGo_eq_zero
    (noOcc_of_two (p := [2, 1, 1, 1, 0, 0]) 0 (by decide) rfl (by decide) len a 4) 200
  have e16 := scoreGo_eq_zero
    (noOcc_of_two (p := [2, 1, 1, 0, 1, 0]) 0 (by decide) rfl (by decide) len a 4) 200
  have e17 := scoreGo_eq_zero
    (noOcc_of_two (p := [2, 1, 0, 1, 1, 0]) 0 (by decide) rfl (by decide) len a 4) 200
  have e18 := scoreGo_eq_zero
    (noOcc_of_flank (p := [0, 0, 1, 1, 0]) 1 4 rfl rfl rfl rfl (by decide) (by decide)
      (by decide) len a (c := 4) (by decide)) 50
  have e19 := scoreGo_eq_zero
    (noOcc_of_flank (p := [0, 1, 1, 0, 0]) 0 3 rfl rfl rfl rfl (by decide) (by decide)
      (by decide) len a (c := 4) (by decide)) 50
  have e20 := scoreGo_eq_zero
    (noOcc_of_sandwich (p := [0, 1, 0, 1, 0]) 1 2 3 rfl rfl rfl (by decide) (by decide)
      (by decide) (by decide) len a 4) 50
  have e21 := scoreGo_eq_zero
    (noOcc_of_sandwich (p := [0, 1, 0, 0, 1, 0]) 1 2 4 rfl rfl rfl (by decide) (by decide)
      (by decide) (by decide) len a 4) 50
  have e2 := scoreGo_le_of_unique (occ_011110_unique len a) 10000
    ((blockLine len a 4).length + 1) 0
  unfold score_encoded_line
  simp only [PATTERN_SCORES, List.map_cons, List.map_nil, List.sum_cons, List.sum_nil]
  rw [e1, e3, e4, e5, e6, e7, e8, e9, e10, e11, e12, e13, e14, e15, e16, e17, e18,
    e19, e20, e21]
  omega

/-- A line holding a contiguous block of five own stones scores at least
100000 (`11111` occurs). -/
lemma score_block5_ge (len a : ℕ) (h : a + 5 ≤ len) :
    100000 ≤ score_encoded_line (blockLine len a 5) := by
  have hocc : ([1, 1, 1, 1, 1] : List ℕ).isPrefixOf ((blockLine len a 5).drop a) = true := by
    rw [List.isPrefixOf_iff_prefix, List.prefix_iff_eq_take]
    refine List.ext_getElem ?_ ?_
    · simp [blockLine]
      omega
    · intro i h1 h2
      have hi5 : i < 5 := by simpa using h1
      have hval : ∀ (j : ℕ) (hj : j < ([1, 1, 1, 1, 1] : List ℕ).length),
          ([1, 1, 1, 1, 1] : List ℕ)[j] = 1 := by decide
      rw [hval i (by simpa using h1)]
      rw [List.getElem_take, List.getElem_drop]
      simp only [blockLine, List.getElem_map, List.getElem_range]
      rw [if_pos (by omega)]
  have hge := scoreGo_ge_of_occ hocc 100000 ((blockLine len a 5).length + 1) (by omega)
  unfold score_encoded_line
  simp only [PATTERN_SCORES, List.map_cons, List.map_nil, List.sum_cons, List.sum_nil]
  exact le_trans hge (Nat.le_add_right _ _)

/-- The board of the C9 scenario: exactly the stones
`p, p+d, …, p+(c-1)d` of player `pl`, placed in that order. -/
def segBoard (n : ℕ) (p d : Pos) (pl : ℤ) (c : ℕ) : Board :=
  ⟨n,
   fun x y =>
     if (List.range c).any (fun k => decide (x = p.1 + (k : ℤ) * d.1 ∧ y = p.2 + (k : ℤ) * d.2))
     then pl else 0,
   ((List.range c).map (fun k => (p.1 + (k : ℤ) * d.1, p.2 + (k : ℤ) * d.2))).reverse⟩

lemma seg_grid_cases (n : ℕ) (p d : Pos) (pl : ℤ) (c : ℕ) (x y : ℤ) :
    ((segBoard n p d pl c).grid x y = pl ∧
      (∃ k : ℕ, k < c ∧ x = p.1 + (k : ℤ) * d.1 ∧ y = p.2 + (k : ℤ) * d.2)) ∨
    ((segBoard n p d pl c).grid x y = 0 ∧
      ¬ (∃ k : ℕ, k < c ∧ x = p.1 + (k : ℤ) * d.1 ∧ y = p.2 + (k : ℤ) * d.2)) := by
  simp only [segBoard]
  by_cases h : (List.range c).any
      (fun k => decide (x = p.1 + (k : ℤ) * d.1 ∧ y = p.2 + (k : ℤ) * d.2)) = true
  · left
    refine ⟨by rw [if_pos h], ?_⟩
    obtain ⟨k, hk, hkp⟩ := List.any_eq_true.mp h
    exact ⟨k, List.mem_range.mp hk, of_decide_eq_true hkp⟩
  · right
    refine ⟨by rw [if_neg h], ?_⟩
    rintro ⟨k, hk, hkp⟩
    exact h (List.any_eq_true.mpr ⟨k, List.mem_range.mpr hk, decide_eq_true hkp⟩)

lemma seg_grid_eq_iff (n : ℕ) (p d : Pos) (pl : ℤ) (c : ℕ) (hpl : pl = 1 ∨ pl = -1)
    (x y : ℤ) :
    (segBoard n p d pl c).grid x y = pl ↔
      ∃ k : ℕ, k < c ∧ x = p.1 + (k : ℤ) * d.1 ∧ y = p.2 + (k : ℤ) * d.2 := by
  rcases seg_grid_cases n p d pl c x y with ⟨h1, h2⟩ | ⟨h1, h2⟩
  · exact ⟨fun _ => h2, fun _ => h1⟩
  · refine ⟨fun hx => ?_, fun hx => absurd hx h2⟩
    rw [h1] at hx
    omega

lemma countP_le_one_of_unique {α} (l : List α) (hnd : l.Nodup) (P : α → Bool)
    (h : ∀ x ∈ l, ∀ y ∈ l, P x = true → P y = true → x = y) : l.countP P ≤ 1 := by
  induction l with
  | nil => simp
  | cons x t ih =>
    have ht : t.countP P ≤ 1 := ih (List.Nodup.of_cons hnd) (fun u hu v hv hPu hPv =>
      h u (List.mem_cons_of_mem x hu) v (List.mem_cons_of_mem x hv) hPu hPv)
    rw [List.countP_cons]
    rcases hx : P x with _ | _
    · simp [hx]
      omega
    · have ht0 : t.countP P = 0 := by
        rw [List.countP_eq_zero]
        intro u hu hPu
        have heq := h u (List.mem_cons_of_mem x hu) x (List.mem_cons_self x t) hPu hx
        subst heq
        exact (List.nodup_cons.mp hnd).1 hu
      simp [hx, ht0]

lemma count_map_countP {α} [DecidableEq α] (g : ℤ → α) (l : List ℤ) (v : α) :
    (l.map g).count v = l.countP (fun z => decide (g z = v)) := by
  induction l with
  | nil => rfl
  | cons x t ih =>
    simp only [List.map_cons, List.count_cons, List.countP_cons, ih]
    by_cases h : g x = v
    · simp [h]
    · simp [h]

lemma encode_count (l : List ℤ) (q : ℤ) : (encode_line l q).count 1 = l.count q := by
  induction l with
  | nil => rfl
  | cons x t ih =>
    simp only [encode_line, List.map_cons, List.count_cons] at ih ⊢
    by_cases h : x = q
    · simp [h, ih]
    · by_cases h2 : x = -q
      · simp only [if_neg h, if_pos h2]
        have : ((2 : ℕ) == 1) = false := by decide
        simp [h, ih, this]
      · simp only [if_neg h, if_neg h2]
        have : ((0 : ℕ) == 1) = false := by decide
        simp [h, ih, this]

lemma score_map_line_zero (idx : List ℤ) (hnd : idx.Nodup) (g : ℤ → ℤ) (pl : ℤ)
    (huniq : ∀ z ∈ idx, ∀ z' ∈ idx, g z = pl → g z' = pl → z = z') :
    score_encoded_line (encode_line (idx.map g) pl) = 0 := by
  apply score_zero_of_count_le_one
  rw [encode_count, count_map_countP]
  refine countP_le_one_of_unique _ hnd _ ?_
  intro x hx y hy hPx hPy
  exact huniq x hx y hy (of_decide_eq_true hPx) (of_decide_eq_true hPy)

lemma filterMap_ite {α β} (l : List α) (P : α → Prop) [DecidablePred P] (g : α → β) :
    l.filterMap (fun x => if P x then some (g x) else none) =
      (l.filter (fun x => decide (P x))).map g := by
  induction l with
  | nil => rfl
  | cons x t ih =>
    by_cases h : P x
    · simp [List.filterMap_cons, List.filter_cons, h, ih]
    · simp [List.filterMap_cons, List.filter_cons, h, ih]

lemma score_filterMap_line_zero (idx : List ℤ) (hnd : idx.Nodup) (cond : ℤ → Prop)
    [DecidablePred cond] (g : ℤ → ℤ) (pl : ℤ)
    (huniq : ∀ z ∈ idx, ∀ z' ∈ idx, cond z → cond z' → g z = pl → g z' = pl → z = z') :
    score_encoded_line
      (encode_line (idx.filterMap (fun x => if cond x then some (g x) else none)) pl) = 0 := by
  rw [filterMap_ite]
  refine score_map_line_zero _ (List.Nodup.filter _ hnd) g pl ?_
  intro z hz z' hz' h1 h2
  rw [List.mem_filter] at hz hz'
  exact huniq z hz.1 z' hz'.1 (of_decide_eq_true hz.2) (of_decide_eq_true hz'.2) h1 h2

lemma sum_le_single_bound {α} [DecidableEq α] (l : List α) (g : α → ℕ) (a0 : α) (B : ℕ)
    (h0 : ∀ x ∈ l, x ≠ a0 → g x = 0) (hB : g a0 ≤ B) (hc : l.count a0 ≤ 1) :
    (l.map g).sum ≤ B := by
  induction l with
  | nil => simp
  | cons x t ih =>
    simp only [List.map_cons, List.sum_cons]
    by_cases hx : x = a0
    · subst hx
      have hcnt : t.count x = 0 := by
        have := List.count_cons_self x t
        omega
      have ht : (t.map g).sum = 0 := by
        refine List.sum_eq_zero ?_
        intro y hy
        obtain ⟨z, hz, rfl⟩ := List.mem_map.mp hy
        refine h0 z (List.mem_cons_of_mem x hz) ?_
        intro hzx
        subst hzx
        rw [List.count_eq_zero] at hcnt
        exact hcnt hz
      omega
    · have hgx : g x = 0 := h0 x (List.mem_cons_self x t) hx
      have hct : t.count a0 ≤ 1 := by
        rw [List.count_cons_of_ne (fun h => hx h.symm)] at hc
        exact hc
      have := ih (fun y hy => h0 y (List.mem_cons_of_mem x hy)) hct
      omega

lemma le_sum_of_mem_map {α} (l : List α) (g : α → ℕ) (a0 : α) (h : a0 ∈ l) :
    g a0 ≤ (l.map g).sum := by
  induction l with
  | nil => cases h
  | cons x t ih =>
    simp only [List.map_cons, List.sum_cons]
    rcases List.mem_cons.mp h with rfl | h'
    · omega
    · have := ih h'
      omega

lemma sum_flatMap_pair {α} (l : List α) (g h : α → ℕ) :
    ((l.flatMap (fun i => [g i, h i]))).sum = (l.map (fun i => g i + h i)).sum := by
  induction l with
  | nil => rfl
  | cons x t ih =>
    simp only [List.flatMap_cons, List.sum_append, List.map_cons, List.sum_cons, ih]
    simp [Nat.add_assoc]

/-- Encoding of a mapped index range whose own-stone positions form the
index block `[a, a+c)`. -/
lemma encode_intRange_block (lo hi : ℤ) (g : ℤ → ℤ) (pl : ℤ) (a c : ℕ)
    (hpl : pl = 1 ∨ pl = -1)
    (h : ∀ t : ℕ, t < (hi + 1 - lo).toNat →
      (g (lo + (t : ℤ)) = pl ↔ (a ≤ t ∧ t < a + c)) ∧
      (g (lo + (t : ℤ)) = pl ∨ g (lo + (t : ℤ)) = 0)) :
    encode_line ((intRange lo hi).map g) pl = blockLine (hi + 1 - lo).toNat a c := by
  unfold encode_line blockLine intRange
  rw [List.map_map, List.map_map]
  refine List.map_congr_left ?_
  intro t ht
  have ht' := List.mem_range.mp ht
  obtain ⟨hiff, hval⟩ := h t ht'
  simp only [Function.comp_apply]
  rcases hval with hv | hv
  · rw [hv, if_pos rfl, if_pos (hiff.mp hv)]
  · have hnp : ¬ ((0 : ℤ) = pl) := by omega
    have hnp2 : ¬ ((0 : ℤ) = -pl) := by omega
    rw [hv, if_neg hnp, if_neg hnp2, if_neg ?_]
    intro hcond
    have := hiff.mpr hcond
    omega

lemma mem_extract_lines_values (b : Board) :
    ∀ l ∈ extract_lines b, ∀ v ∈ l, ∃ x y, v = b.grid x y := by
  intro l hl v hv
  unfold extract_lines at hl
  rcases List.mem_append.mp hl with h | h2
  swap
  · obtain ⟨dpar, _, hopt⟩ := List.mem_filterMap.mp h2
    by_cases hlen : 5 ≤ ((intRange 0 ((b.size : ℤ) - 1)).filterMap (fun x =>
        if 0 ≤ dpar - x ∧ dpar - x < (b.size : ℤ) then some (b.grid x (dpar - x))
        else none)).length
    · rw [if_pos hlen] at hopt
      obtain rfl := Option.some.inj hopt
      obtain ⟨x, _, hx⟩ := List.mem_filterMap.mp hv
      by_cases hc : 0 ≤ dpar - x ∧ dpar - x < (b.size : ℤ)
      · rw [if_pos hc] at hx
        exact ⟨x, dpar - x, (Option.some.inj hx).symm⟩
      · rw [if_neg hc] at hx
        cases hx
    · rw [if_neg hlen] at hopt
      cases hopt
  rcases List.mem_append.mp h with h1 | h2
  · obtain ⟨i, _, hmem⟩ := List.mem_flatMap.mp h1
    rcases List.mem_cons.mp hmem with rfl | hmem2
    · obtain ⟨y, _, rfl⟩ := List.mem_map.mp hv
      exact ⟨i, y, rfl⟩
    · rcases List.mem_cons.mp hmem2 with rfl | hmem3
      · obtain ⟨x, _, rfl⟩ := List.mem_map.mp hv
        exact ⟨x, i, rfl⟩
      · cases hmem3
  · obtain ⟨dpar, _, hopt⟩ := List.mem_filterMap.mp h2
    by_cases hlen : 5 ≤ ((intRange (max dpar 0) (min ((b.size : ℤ) + dpar) (b.size : ℤ) - 1)).map
        (fun i => b.grid i (i - dpar))).length
    · rw [if_pos hlen] at hopt
      obtain rfl := Option.some.inj hopt
      obtain ⟨i, _, rfl⟩ := List.mem_map.mp hv
      exact ⟨i, i - dpar, rfl⟩
    · rw [if_neg hlen] at hopt
      cases hopt

lemma opp_score_zero (n : ℕ) (p d : Pos) (pl : ℤ) (c : ℕ) (hpl : pl = 1 ∨ pl = -1) :
    evaluate_player (segBoard n p d pl c) (-pl) = 0 := by
  unfold evaluate_player
  refine List.sum_eq_zero ?_
  intro x hx
  obtain ⟨l, hl, rfl⟩ := List.mem_map.mp hx
  apply score_zero_of_count_le_one
  rw [encode_count]
  have hcnt : l.count (-pl) = 0 := by
    rw [List.count_eq_zero]
    intro hmem
    obtain ⟨x0, y0, hxy⟩ := mem_extract_lines_values _ l hl (-pl) hmem
    rcases seg_grid_cases n p d pl c x0 y0 with ⟨h1, _⟩ | ⟨h1, _⟩ <;> rw [h1] at hxy <;> omega
  omega

lemma intRange_nil {lo hi : ℤ} (h : hi < lo) : intRange lo hi = [] := by
  unfold intRange
  have : (hi + 1 - lo).toNat = 0 := by omega
  rw [this]
  rfl

lemma intRange_cons {lo hi : ℤ} (h : lo ≤ hi) : intRange lo hi = lo :: intRange (lo + 1) hi := by
  unfold intRange
  have h1 : (hi + 1 - lo).toNat = (hi + 1 - (lo + 1)).toNat + 1 := by omega
  rw [h1, List.range_succ_eq_map, List.map_cons, List.map_map]
  congr 1
  · omega
  · refine List.map_congr_left ?_
    intro j _
    simp only [Function.comp_apply]
    omega

lemma intRange_filter_interval :
    ∀ (m : ℕ) (lo hi : ℤ), (hi + 1 - lo).toNat = m → ∀ (xlo xhi : ℤ),
      (intRange lo hi).filter (fun x => decide (xlo ≤ x ∧ x ≤ xhi)) =
        intRange (max lo xlo) (min hi xhi) := by
  intro m
  induction m with
  | zero =>
    intro lo hi hm xlo xhi
    have h1 : hi < lo := by omega
    rw [intRange_nil h1,
      intRange_nil (lt_of_le_of_lt (min_le_left hi xhi) (lt_of_lt_of_le h1 (le_max_left lo xlo)))]
    rfl
  | succ k ih =>
    intro lo hi hm xlo xhi
    have h1 : lo ≤ hi := by omega
    rw [intRange_cons h1]
    by_cases hc : xlo ≤ lo ∧ lo ≤ xhi
    · rw [List.filter_cons_of_pos (by simpa using hc), ih (lo + 1) hi (by omega) xlo xhi]
      rw [max_eq_left hc.1, max_eq_left (by omega : xlo ≤ lo + 1)]
      exact (intRange_cons (le_min h1 hc.2)).symm
    · rw [List.filter_cons_of_neg (by simpa using hc), ih (lo + 1) hi (by omega) xlo xhi]
      by_cases h2 : lo < xlo
      · rw [max_eq_right h2.le, max_eq_right (by omega : lo + 1 ≤ xlo)]
      · have h3 : xhi < lo := by omega
        rw [intRange_nil
              (lt_of_le_of_lt (min_le_right hi xhi)
                (lt_of_lt_of_le h3 ((by omega : lo ≤ lo + 1).trans (le_max_left (lo + 1) xlo)))),
            intRange_nil
              (lt_of_le_of_lt (min_le_right hi xhi) (lt_of_lt_of_le h3 (le_max_left lo xlo)))]

lemma sum_map_flatMap_pair {α β} (l : List α) (r c : α → β) (F : β → ℕ) :
    ((l.flatMap (fun i => [r i, c i])).map F).sum = (l.map (fun i => F (r i) + F (c i))).sum := by
  induction l with
  | nil => rfl
  | cons x t ih =>
    simp only [List.flatMap_cons, List.map_append, List.sum_append, List.map_cons, List.map_nil,
      List.sum_cons, List.sum_nil, ih]
    omega

/-- The per-line sum defining `_evaluate_player`, split into the three
families of `_extract_lines`: rows with columns, diagonals, anti-diagonals. -/
lemma evaluate_player_decomp (b : Board) (pl : ℤ) :
    evaluate_player b pl =
      ((intRange 0 ((b.size : ℤ) - 1)).map (fun i =>
        score_encoded_line
          (encode_line ((intRange 0 ((b.size : ℤ) - 1)).map (fun y => b.grid i y)) pl) +
        score_encoded_line
          (encode_line ((intRange 0 ((b.size : ℤ) - 1)).map (fun x => b.grid x i)) pl))).sum +
      (((intRange (-(b.size : ℤ) + 1) ((b.size : ℤ) - 1)).filterMap (fun d =>
        if 5 ≤ ((intRange (max d 0) (min ((b.size : ℤ) + d) (b.size : ℤ) - 1)).map
            (fun i => b.grid i (i - d))).length
        then some ((intRange (max d 0) (min ((b.size : ℤ) + d) (b.size : ℤ) - 1)).map
            (fun i => b.grid i (i - d)))
        else none)).map
        (fun line => score_encoded_line (encode_line line pl))).sum +
      (((intRange 0 (2 * (b.size : ℤ) - 2)).filterMap (fun d =>
        if 5 ≤ ((intRange 0 ((b.size : ℤ) - 1)).filterMap (fun x =>
            if 0 ≤ d - x ∧ d - x < (b.size : ℤ) then some (b.grid x (d - x)) else none)).length
        then some ((intRange 0 ((b.size : ℤ) - 1)).filterMap (fun x =>
            if 0 ≤ d - x ∧ d - x < (b.size : ℤ) then some (b.grid x (d - x)) else none))
        else none)).map
        (fun line => score_encoded_line (encode_line line pl))).sum := by
  unfold evaluate_player extract_lines
  rw [List.map_append, List.map_append, List.sum_append, List.sum_append, sum_map_flatMap_pair]

lemma filter_decide_congr (l : List ℤ) (P Q : ℤ → Prop) [DecidablePred P] [DecidablePred Q]
    (h : ∀ x ∈ l, P x ↔ Q x) :
    l.filter (fun x => decide (P x)) = l.filter (fun x => decide (Q x)) := by
  induction l with
  | nil => rfl
  | cons x t ih =>
    have ht := ih (fun y hy => h y (List.mem_cons_of_mem x hy))
    by_cases hx : P x
    · rw [List.filter_cons_of_pos (by simpa using hx),
        List.filter_cons_of_pos (by simpa using (h x (List.mem_cons_self x t)).mp hx), ht]
    · rw [List.filter_cons_of_neg (by simpa using hx),
        List.filter_cons_of_neg
          (by simpa using (not_iff_not.mpr (h x (List.mem_cons_self x t))).mp hx), ht]

/-- The anti-diagonal of index `s0` as extracted by `_extract_lines`
equals a plain map over the clamped index range. -/
lemma anti_filterMap_eq (n : ℕ) (s0 : ℤ) (g : ℤ → ℤ → ℤ) :
    (intRange 0 ((n : ℤ) - 1)).filterMap (fun x =>
        if 0 ≤ s0 - x ∧ s0 - x < (n : ℤ) then some (g x (s0 - x)) else none) =
      (intRange (max 0 (s0 - (n : ℤ) + 1)) (min ((n : ℤ) - 1) s0)).map (fun x => g x (s0 - x)) := by
  rw [filterMap_ite]
  rw [filter_decide_congr (intRange 0 ((n : ℤ) - 1))
    (fun x => 0 ≤ s0 - x ∧ s0 - x < (n : ℤ))
    (fun x => s0 - (n : ℤ) + 1 ≤ x ∧ x ≤ s0) (fun x _ => by omega)]
  rw [intRange_filter_interval n 0 ((n : ℤ) - 1) (by omega) (s0 - (n : ℤ) + 1) s0]

lemma evaluate_player_ge_of_mem (b : Board) (pl : ℤ) {l : List ℤ}
    (hl : l ∈ extract_lines b) :
    score_encoded_line (encode_line l pl) ≤ evaluate_player b pl := by
  unfold evaluate_player
  exact le_sum_of_mem_map (extract_lines b)
    (fun line => score_encoded_line (encode_line line pl)) l hl

lemma rowcol_sum_zero (b : Board) (pl : ℤ)
    (hrow : ∀ i z z' : ℤ, b.grid i z = pl → b.grid i z' = pl → z = z')
    (hcol : ∀ i z z' : ℤ, b.grid z i = pl → b.grid z' i = pl → z = z') :
    ((intRange 0 ((b.size : ℤ) - 1)).map (fun i =>
      score_encoded_line
        (encode_line ((intRange 0 ((b.size : ℤ) - 1)).map (fun y => b.grid i y)) pl) +
      score_encoded_line
        (encode_line ((intRange 0 ((b.size : ℤ) - 1)).map (fun x => b.grid x i)) pl))).sum = 0 := by
  refine List.sum_eq_zero ?_
  intro v hv
  obtain ⟨i, _, rfl⟩ := List.mem_map.mp hv
  rw [score_map_line_zero _ (intRange_nodup _ _) _ _
        (fun z _ z' _ hz hz' => hrow i z z' hz hz'),
      score_map_line_zero _ (intRange_nodup _ _) _ _
        (fun z _ z' _ hz hz' => hcol i z z' hz hz')]
  omega

lemma rowcol_sum_le_of_rowmain (b : Board) (pl : ℤ) (x0 : ℤ) (B : ℕ)
    (hcol : ∀ i z z' : ℤ, b.grid z i = pl → b.grid z' i = pl → z = z')
    (hrow0 : ∀ i, i ≠ x0 → ∀ z z' : ℤ, b.grid i z = pl → b.grid i z' = pl → z = z')
    (hmain : score_encoded_line
      (encode_line ((intRange 0 ((b.size : ℤ) - 1)).map (fun y => b.grid x0 y)) pl) ≤ B) :
    ((intRange 0 ((b.size : ℤ) - 1)).map (fun i =>
      score_encoded_line
        (encode_line ((intRange 0 ((b.size : ℤ) - 1)).map (fun y => b.grid i y)) pl) +
      score_encoded_line
        (encode_line ((intRange 0 ((b.size : ℤ) - 1)).map (fun x => b.grid x i)) pl))).sum ≤ B := by
  refine sum_le_single_bound _ _ x0 B ?_ ?_
    (List.nodup_iff_count_le_one.mp (intRange_nodup _ _) x0)
  · intro i _ hix
    rw [score_map_line_zero _ (intRange_nodup _ _) _ _
          (fun z _ z' _ hz hz' => hrow0 i hix z z' hz hz'),
        score_map_line_zero _ (intRange_nodup _ _) _ _
          (fun z _ z' _ hz hz' => hcol i z z' hz hz')]
  · rw [score_map_line_zero _ (intRange_nodup _ _) _ _
          (fun z _ z' _ hz hz' => hcol x0 z z' hz hz')]
    omega

lemma rowcol_sum_le_of_colmain (b : Board) (pl : ℤ) (y0 : ℤ) (B : ℕ)
    (hrow : ∀ i z z' : ℤ, b.grid i z = pl → b.grid i z' = pl → z = z')
    (hcol0 : ∀ i, i ≠ y0 → ∀ z z' : ℤ, b.grid z i = pl → b.grid z' i = pl → z = z')
    (hmain : score_encoded_line
      (encode_line ((intRange 0 ((b.size : ℤ) - 1)).map (fun x => b.grid x y0)) pl) ≤ B) :
    ((intRange 0 ((b.size : ℤ) - 1)).map (fun i =>
      score_encoded_line
        (encode_line ((intRange 0 ((b.size : ℤ) - 1)).map (fun y => b.grid i y)) pl) +
      score_encoded_line
        (encode_line ((intRange 0 ((b.size : ℤ) - 1)).map (fun x => b.grid x i)) pl))).sum ≤ B := by
  refine sum_le_single_bound _ _ y0 B ?_ ?_
    (List.nodup_iff_count_le_one.mp (intRange_nodup _ _) y0)
  · intro i _ hiy
    rw [score_map_line_zero _ (intRange_nodup _ _) _ _
          (fun z _ z' _ hz hz' => hrow i z z' hz hz'),
        score_map_line_zero _ (intRange_nodup _ _) _ _
          (fun z _ z' _ hz hz' => hcol0 i hiy z z' hz hz')]
  · rw [score_map_line_zero _ (intRange_nodup _ _) _ _
          (fun z _ z' _ hz hz' => hrow y0 z z' hz hz')]
    omega

lemma diag_sum_zero (b : Board) (pl : ℤ)
    (huniq : ∀ dd z z' : ℤ, b.grid z (z - dd) = pl → b.grid z' (z' - dd) = pl → z = z') :
    (((intRange (-(b.size : ℤ) + 1) ((b.size : ℤ) - 1)).filterMap (fun d =>
      if 5 ≤ ((intRange (max d 0) (min ((b.size : ℤ) + d) (b.size : ℤ) - 1)).map
          (fun i => b.grid i (i - d))).length
      then some ((intRange (max d 0) (min ((b.size : ℤ) + d) (b.size : ℤ) - 1)).map
          (fun i => b.grid i (i - d)))
      else none)).map
      (fun line => score_encoded_line (encode_line line pl))).sum = 0 := by
  refine List.sum_eq_zero ?_
  intro v hv
  obtain ⟨l, hl, rfl⟩ := List.mem_map.mp hv
  obtain ⟨dd, _, hopt⟩ := List.mem_filterMap.mp hl
  by_cases hlen : 5 ≤ ((intRange (max dd 0) (min ((b.size : ℤ) + dd) (b.size : ℤ) - 1)).map
      (fun i => b.grid i (i - dd))).length
  · rw [if_pos hlen] at hopt
    obtain rfl := Option.some.inj hopt
    exact score_map_line_zero _ (intRange_nodup _ _) _ _
      (fun z _ z' _ hz hz' => huniq dd z z' hz hz')
  · rw [if_neg hlen] at hopt
    cases hopt

lemma diag_sum_le (b : Board) (pl : ℤ) (d0 : ℤ) (B : ℕ)
    (h0 : ∀ dd, dd ≠ d0 → ∀ z z' : ℤ, b.grid z (z - dd) = pl → b.grid z' (z' - dd) = pl → z = z')
    (hmain : score_encoded_line
      (encode_line ((intRange (max d0 0) (min ((b.size : ℤ) + d0) (b.size : ℤ) - 1)).map
        (fun i => b.grid i (i - d0))) pl) ≤ B) :
    (((intRange (-(b.size : ℤ) + 1) ((b.size : ℤ) - 1)).filterMap (fun d =>
      if 5 ≤ ((intRange (max d 0) (min ((b.size : ℤ) + d) (b.size : ℤ) - 1)).map
          (fun i => b.grid i (i - d))).length
      then some ((intRange (max d 0) (min ((b.size : ℤ) + d) (b.size : ℤ) - 1)).map
          (fun i => b.grid i (i - d)))
      else none)).map
      (fun line => score_encoded_line (encode_line line pl))).sum ≤ B := by
  rw [filterMap_ite, List.map_map]
  refine sum_le_single_bound _ _ d0 B ?_ ?_
    (List.nodup_iff_count_le_one.mp (List.Nodup.filter _ (intRange_nodup _ _)) d0)
  · intro dd _ hdd
    simp only [Function.comp_apply]
    exact score_map_line_zero _ (intRange_nodup _ _) _ _
      (fun z _ z' _ hz hz' => h0 dd hdd z z' hz hz')
  · simp only [Function.comp_apply]
    exact hmain

lemma anti_sum_zero (b : Board) (pl : ℤ)
    (huniq : ∀ dd z z' : ℤ, b.grid z (dd - z) = pl → b.grid z' (dd - z') = pl → z = z') :
    (((intRange 0 (2 * (b.size : ℤ) - 2)).filterMap (fun d =>
      if 5 ≤ ((intRange 0 ((b.size : ℤ) - 1)).filterMap (fun x =>
          if 0 ≤ d - x ∧ d - x < (b.size : ℤ) then some (b.grid x (d - x)) else none)).length
      then some ((intRange 0 ((b.size : ℤ) - 1)).filterMap (fun x =>
          if 0 ≤ d - x ∧ d - x < (b.size : ℤ) then some (b.grid x (d - x)) else none))
      else none)).map
      (fun line => score_encoded_line (encode_line line pl))).sum = 0 := by
  refine List.sum_eq_zero ?_
  intro v hv
  obtain ⟨l, hl, rfl⟩ := List.mem_map.mp hv
  obtain ⟨dd, _, hopt⟩ := List.mem_filterMap.mp hl
  by_cases hlen : 5 ≤ ((intRange 0 ((b.size : ℤ) - 1)).filterMap (fun x =>
      if 0 ≤ dd - x ∧ dd - x < (b.size : ℤ) then some (b.grid x (dd - x)) else none)).length
  · rw [if_pos hlen] at hopt
    obtain rfl := Option.some.inj hopt
    exact score_filterMap_line_zero _ (intRange_nodup _ _) _ _ _
      (fun z _ z' _ _ _ hz hz' => huniq dd z z' hz hz')
  · rw [if_neg hlen] at hopt
    cases hopt

lemma anti_sum_le (b : Board) (pl : ℤ) (s0 : ℤ) (B : ℕ)
    (h0 : ∀ dd, dd ≠ s0 → ∀ z z' : ℤ, b.grid z (dd - z) = pl → b.grid z' (dd - z') = pl → z = z')
    (hmain : score_encoded_line
      (encode_line ((intRange 0 ((b.size : ℤ) - 1)).filterMap (fun x =>
        if 0 ≤ s0 - x ∧ s0 - x < (b.size : ℤ) then some (b.grid x (s0 - x)) else none)) pl) ≤ B) :
    (((intRange 0 (2 * (b.size : ℤ) - 2)).filterMap (fun d =>
      if 5 ≤ ((intRange 0 ((b.size : ℤ) - 1)).filterMap (fun x =>
          if 0 ≤ d - x ∧ d - x < (b.size : ℤ) then some (b.grid x (d - x)) else none)).length
      then some ((intRange 0 ((b.size : ℤ) - 1)).filterMap (fun x =>
          if 0 ≤ d - x ∧ d - x < (b.size : ℤ) then some (b.grid x (d - x)) else none))
      else none)).map
      (fun line => score_encoded_line (encode_line line pl))).sum ≤ B := by
  rw [filterMap_ite, List.map_map]
  refine sum_le_single_bound _ _ s0 B ?_ ?_
    (List.nodup_iff_count_le_one.mp (List.Nodup.filter _ (intRange_nodup _ _)) s0)
  · intro dd _ hdd
    simp only [Function.comp_apply]
    exact score_filterMap_line_zero _ (intRange_nodup _ _) _ _ _
      (fun z _ z' _ _ _ hz hz' => h0 dd hdd z z' hz hz')
  · simp only [Function.comp_apply]
    exact hmain

lemma seg_val (n : ℕ) (p d : Pos) (pl : ℤ) (c : ℕ) :
    ∀ x y : ℤ, (segBoard n p d pl c).grid x y = pl ∨ (segBoard n p d pl c).grid x y = 0 :=
  fun x y => (seg_grid_cases n p d pl c x y).imp And.left And.left

lemma seg_grid_d01 (n : ℕ) (p : Pos) (pl : ℤ) (c : ℕ) (hpl : pl = 1 ∨ pl = -1) :
    ∀ x y : ℤ, (segBoard n p (0, 1) pl c).grid x y = pl ↔
      ∃ k : ℕ, k < c ∧ x = p.1 + (k : ℤ) * 0 ∧ y = p.2 + (k : ℤ) * 1 :=
  fun x y => seg_grid_eq_iff n p (0, 1) pl c hpl x y

lemma seg_grid_d10 (n : ℕ) (p : Pos) (pl : ℤ) (c : ℕ) (hpl : pl = 1 ∨ pl = -1) :
    ∀ x y : ℤ, (segBoard n p (1, 0) pl c).grid x y = pl ↔
      ∃ k : ℕ, k < c ∧ x = p.1 + (k : ℤ) * 1 ∧ y = p.2 + (k : ℤ) * 0 :=
  fun x y => seg_grid_eq_iff n p (1, 0) pl c hpl x y

lemma seg_grid_d11 (n : ℕ) (p : Pos) (pl : ℤ) (c : ℕ) (hpl : pl = 1 ∨ pl = -1) :
    ∀ x y : ℤ, (segBoard n p (1, 1) pl c).grid x y = pl ↔
      ∃ k : ℕ, k < c ∧ x = p.1 + (k : ℤ) * 1 ∧ y = p.2 + (k : ℤ) * 1 :=
  fun x y => seg_grid_eq_iff n p (1, 1) pl c hpl x y

lemma seg_grid_d1m1 (n : ℕ) (p : Pos) (pl : ℤ) (c : ℕ) (hpl : pl = 1 ∨ pl = -1) :
    ∀ x y : ℤ, (segBoard n p (1, -1) pl c).grid x y = pl ↔
      ∃ k : ℕ, k < c ∧ x = p.1 + (k : ℤ) * 1 ∧ y = p.2 + (k : ℤ) * (-1) :=
  fun x y => seg_grid_eq_iff n p (1, -1) pl c hpl x y

lemma toNat_block_le {a L U : ℤ} (h1 : L ≤ a) (h2 : a + 5 ≤ U + 1) :
    (a - L).toNat + 5 ≤ (U + 1 - L).toNat := by omega

lemma toNat_five_le {L U a : ℤ} (h1 : L ≤ a) (h2 : a + 5 ≤ U + 1) :
    5 ≤ (U + 1 - L).toNat := by omega

/-- The row through the stones of a vertical segment encodes to a block line. -/
lemma seg_main_d01 (n : ℕ) (p : Pos) (pl : ℤ) (c : ℕ) (hpl : pl = 1 ∨ pl = -1)
    (hy : 0 ≤ p.2) :
    encode_line ((intRange 0 ((n : ℤ) - 1)).map
        (fun y => (segBoard n p (0, 1) pl c).grid p.1 y)) pl =
      blockLine n p.2.toNat c := by
  have hgrid := seg_grid_d01 n p pl c hpl
  have hn : ((n : ℤ) - 1 + 1 - 0).toNat = n := by omega
  have h := encode_intRange_block 0 ((n : ℤ) - 1)
    (fun y => (segBoard n p (0, 1) pl c).grid p.1 y) pl p.2.toNat c hpl ?_
  · rw [hn] at h
    exact h
  intro t ht
  refine ⟨⟨fun hg => ?_, fun hb => ?_⟩, seg_val n p (0, 1) pl c p.1 (0 + (t : ℤ))⟩
  · obtain ⟨k, hk, e1, e2⟩ := (hgrid p.1 (0 + (t : ℤ))).mp hg
    omega
  · exact (hgrid p.1 (0 + (t : ℤ))).mpr ⟨t - p.2.toNat, by omega, by omega, by omega⟩

/-- The column through the stones of a horizontal segment encodes to a block line. -/
lemma seg_main_d10 (n : ℕ) (p : Pos) (pl : ℤ) (c : ℕ) (hpl : pl = 1 ∨ pl = -1)
    (hx : 0 ≤ p.1) :
    encode_line ((intRange 0 ((n : ℤ) - 1)).map
        (fun x => (segBoard n p (1, 0) pl c).grid x p.2)) pl =
      blockLine n p.1.toNat c := by
  have hgrid := seg_grid_d10 n p pl c hpl
  have hn : ((n : ℤ) - 1 + 1 - 0).toNat = n := by omega
  have h := encode_intRange_block 0 ((n : ℤ) - 1)
    (fun x => (segBoard n p (1, 0) pl c).grid x p.2) pl p.1.toNat c hpl ?_
  · rw [hn] at h
    exact h
  intro t ht
  refine ⟨⟨fun hg => ?_, fun hb => ?_⟩, seg_val n p (1, 0) pl c (0 + (t : ℤ)) p.2⟩
  · obtain ⟨k, hk, e1, e2⟩ := (hgrid (0 + (t : ℤ)) p.2).mp hg
    omega
  · exact (hgrid (0 + (t : ℤ)) p.2).mpr ⟨t - p.1.toNat, by omega, by omega, by omega⟩

/-- The main diagonal through the stones of a diagonal segment encodes to
a block line, for any index window ending at the segment column or later. -/
lemma seg_main_d11_aux (n : ℕ) (p : Pos) (pl : ℤ) (c : ℕ) (hpl : pl = 1 ∨ pl = -1)
    (L U : ℤ) (hL : L ≤ p.1) :
    encode_line ((intRange L U).map
        (fun i => (segBoard n p (1, 1) pl c).grid i (i - (p.1 - p.2)))) pl =
      blockLine (U + 1 - L).toNat (p.1 - L).toNat c := by
  have hgrid := seg_grid_d11 n p pl c hpl
  refine encode_intRange_block L U
    (fun i => (segBoard n p (1, 1) pl c).grid i (i - (p.1 - p.2))) pl (p.1 - L).toNat c hpl ?_
  intro t ht
  refine ⟨⟨fun hg => ?_, fun hb => ?_⟩,
    seg_val n p (1, 1) pl c (L + (t : ℤ)) (L + (t : ℤ) - (p.1 - p.2))⟩
  · obtain ⟨k, hk, e1, e2⟩ := (hgrid (L + (t : ℤ)) (L + (t : ℤ) - (p.1 - p.2))).mp hg
    omega
  · exact (hgrid (L + (t : ℤ)) (L + (t : ℤ) - (p.1 - p.2))).mpr
      ⟨t - (p.1 - L).toNat, by omega, by omega, by omega⟩

/-- The main anti-diagonal through the stones of an anti-diagonal segment
encodes to a block line, for any index window. -/
lemma seg_main_d1m1_aux (n : ℕ) (p : Pos) (pl : ℤ) (c : ℕ) (hpl : pl = 1 ∨ pl = -1)
    (L U : ℤ) (hL : L ≤ p.1) :
    encode_line ((intRange L U).map
        (fun x => (segBoard n p (1, -1) pl c).grid x (p.1 + p.2 - x))) pl =
      blockLine (U + 1 - L).toNat (p.1 - L).toNat c := by
  have hgrid := seg_grid_d1m1 n p pl c hpl
  refine encode_intRange_block L U
    (fun x => (segBoard n p (1, -1) pl c).grid x (p.1 + p.2 - x)) pl (p.1 - L).toNat c hpl ?_
  intro t ht
  refine ⟨⟨fun hg => ?_, fun hb => ?_⟩,
    seg_val n p (1, -1) pl c (L + (t : ℤ)) (p.1 + p.2 - (L + (t : ℤ)))⟩
  · obtain ⟨k, hk, e1, e2⟩ := (hgrid (L + (t : ℤ)) (p.1 + p.2 - (L + (t : ℤ)))).mp hg
    omega
  · exact (hgrid (L + (t : ℤ)) (p.1 + p.2 - (L + (t : ℤ)))).mpr
      ⟨t - (p.1 - L).toNat, by omega, by omega, by omega⟩

lemma seg4_le_d01 (n : ℕ) (p : Pos) (pl : ℤ) (hpl : pl = 1 ∨ pl = -1) (hy : 0 ≤ p.2) :
    evaluate_player (segBoard n p (0, 1) pl 4) pl ≤ 10000 := by
  have hgrid := seg_grid_d01 n p pl 4 hpl
  have hmain : score_encoded_line (encode_line ((intRange 0 ((n : ℤ) - 1)).map
      (fun y => (segBoard n p (0, 1) pl 4).grid p.1 y)) pl) ≤ 10000 := by
    rw [seg_main_d01 n p pl 4 hpl hy]
    exact score_block4_le _ _
  rw [evaluate_player_decomp]
  have h1 := rowcol_sum_le_of_rowmain (segBoard n p (0, 1) pl 4) pl p.1 10000
    (fun i z z' hz hz' => by
      obtain ⟨k, hk, e1, e2⟩ := (hgrid z i).mp hz
      obtain ⟨k', hk', e1', e2'⟩ := (hgrid z' i).mp hz'
      omega)
    (fun i hix z z' hz hz' => by
      obtain ⟨k, hk, e1, e2⟩ := (hgrid i z).mp hz
      omega)
    hmain
  have h2 := diag_sum_zero (segBoard n p (0, 1) pl 4) pl
    (fun dd z z' hz hz' => by
      obtain ⟨k, hk, e1, e2⟩ := (hgrid z (z - dd)).mp hz
      obtain ⟨k', hk', e1', e2'⟩ := (hgrid z' (z' - dd)).mp hz'
      omega)
  have h3 := anti_sum_zero (segBoard n p (0, 1) pl 4) pl
    (fun dd z z' hz hz' => by
      obtain ⟨k, hk, e1, e2⟩ := (hgrid z (dd - z)).mp hz
      obtain ⟨k', hk', e1', e2'⟩ := (hgrid z' (dd - z')).mp hz'
      omega)
  omega

lemma seg4_le_d10 (n : ℕ) (p : Pos) (pl : ℤ) (hpl : pl = 1 ∨ pl = -1) (hx : 0 ≤ p.1) :
    evaluate_player (segBoard n p (1, 0) pl 4) pl ≤ 10000 := by
  have hgrid := seg_grid_d10 n p pl 4 hpl
  have hmain : score_encoded_line (encode_line ((intRange 0 ((n : ℤ) - 1)).map
      (fun x => (segBoard n p (1, 0) pl 4).grid x p.2)) pl) ≤ 10000 := by
    rw [seg_main_d10 n p pl 4 hpl hx]
    exact score_block4_le _ _
  rw [evaluate_player_decomp]
  have h1 := rowcol_sum_le_of_colmain (segBoard n p (1, 0) pl 4) pl p.2 10000
    (fun i z z' hz hz' => by
      obtain ⟨k, hk, e1, e2⟩ := (hgrid i z).mp hz
      obtain ⟨k', hk', e1', e2'⟩ := (hgrid i z').mp hz'
      omega)
    (fun i hiy z z' hz hz' => by
      obtain ⟨k, hk, e1, e2⟩ := (hgrid z i).mp hz
      omega)
    hmain
  have h2 := diag_sum_zero (segBoard n p (1, 0) pl 4) pl
    (fun dd z z' hz hz' => by
      obtain ⟨k, hk, e1, e2⟩ := (hgrid z (z - dd)).mp hz
      obtain ⟨k', hk', e1', e2'⟩ := (hgrid z' (z' - dd)).mp hz'
      omega)
  have h3 := anti_sum_zero (segBoard n p (1, 0) pl 4) pl
    (fun dd z z' hz hz' => by
      obtain ⟨k, hk, e1, e2⟩ := (hgrid z (dd - z)).mp hz
      obtain ⟨k', hk', e1', e2'⟩ := (hgrid z' (dd - z')).mp hz'
      omega)
  omega

lemma seg4_le_d11 (n : ℕ) (p : Pos) (pl : ℤ) (hpl : pl = 1 ∨ pl = -1)
    (hx : 0 ≤ p.1) (hy : 0 ≤ p.2) :
    evaluate_player (segBoard n p (1, 1) pl 4) pl ≤ 10000 := by
  have hgrid := seg_grid_d11 n p pl 4 hpl
  have hmain : score_encoded_line (encode_line
      ((intRange (max (p.1 - p.2) 0) (min ((n : ℤ) + (p.1 - p.2)) (n : ℤ) - 1)).map
        (fun i => (segBoard n p (1, 1) pl 4).grid i (i - (p.1 - p.2)))) pl) ≤ 10000 := by
    rw [seg_main_d11_aux n p pl 4 hpl (max (p.1 - p.2) 0)
      (min ((n : ℤ) + (p.1 - p.2)) (n : ℤ) - 1) (max_le (by omega) hx)]
    exact score_block4_le _ _
  rw [evaluate_player_decomp]
  have h1 := rowcol_sum_zero (segBoard n p (1, 1) pl 4) pl
    (fun i z z' hz hz' => by
      obtain ⟨k, hk, e1, e2⟩ := (hgrid i z).mp hz
      obtain ⟨k', hk', e1', e2'⟩ := (hgrid i z').mp hz'
      omega)
    (fun i z z' hz hz' => by
      obtain ⟨k, hk, e1, e2⟩ := (hgrid z i).mp hz
      obtain ⟨k', hk', e1', e2'⟩ := (hgrid z' i).mp hz'
      omega)
  have h2 := diag_sum_le (segBoard n p (1, 1) pl 4) pl (p.1 - p.2) 10000
    (fun dd hdd z z' hz hz' => by
      obtain ⟨k, hk, e1, e2⟩ := (hgrid z (z - dd)).mp hz
      omega)
    hmain
  have h3 := anti_sum_zero (segBoard n p (1, 1) pl 4) pl
    (fun dd z z' hz hz' => by
      obtain ⟨k, hk, e1, e2⟩ := (hgrid z (dd - z)).mp hz
      obtain ⟨k', hk', e1', e2'⟩ := (hgrid z' (dd - z')).mp hz'
      omega)
  omega

lemma seg4_le_d1m1 (n : ℕ) (p : Pos) (pl : ℤ) (hpl : pl = 1 ∨ pl = -1)
    (hx : 0 ≤ p.1) (hy2 : p.2 < (n : ℤ)) :
    evaluate_player (segBoard n p (1, -1) pl 4) pl ≤ 10000 := by
  have hgrid := seg_grid_d1m1 n p pl 4 hpl
  have hmain : score_encoded_line (encode_line ((intRange 0 ((n : ℤ) - 1)).filterMap
      (fun x => if 0 ≤ p.1 + p.2 - x ∧ p.1 + p.2 - x < (n : ℤ)
        then some ((segBoard n p (1, -1) pl 4).grid x (p.1 + p.2 - x)) else none)) pl)
      ≤ 10000 := by
    rw [anti_filterMap_eq n (p.1 + p.2) (segBoard n p (1, -1) pl 4).grid]
    rw [seg_main_d1m1_aux n p pl 4 hpl (max 0 (p.1 + p.2 - (n : ℤ) + 1))
      (min ((n : ℤ) - 1) (p.1 + p.2)) (max_le hx (by omega))]
    exact score_block4_le _ _
  rw [evaluate_player_decomp]
  have h1 := rowcol_sum_zero (segBoard n p (1, -1) pl 4) pl
    (fun i z z' hz hz' => by
      obtain ⟨k, hk, e1, e2⟩ := (hgrid i z).mp hz
      obtain ⟨k', hk', e1', e2'⟩ := (hgrid i z').mp hz'
      omega)
    (fun i z z' hz hz' => by
      obtain ⟨k, hk, e1, e2⟩ := (hgrid z i).mp hz
      obtain ⟨k', hk', e1', e2'⟩ := (hgrid z' i).mp hz'
      omega)
  have h2 := diag_sum_zero (segBoard n p (1, -1) pl 4) pl
    (fun dd z z' hz hz' => by
      obtain ⟨k, hk, e1, e2⟩ := (hgrid z (z - dd)).mp hz
      obtain ⟨k', hk', e1', e2'⟩ := (hgrid z' (z' - dd)).mp hz'
      omega)
  have h3 := anti_sum_le (segBoard n p (1, -1) pl 4) pl (p.1 + p.2) 10000
    (fun dd hdd z z' hz hz' => by
      obtain ⟨k, hk, e1, e2⟩ := (hgrid z (dd - z)).mp hz
      omega)
    hmain
  omega

lemma seg5_ge_d01 (n : ℕ) (p : Pos) (pl : ℤ) (hpl : pl = 1 ∨ pl = -1)
    (hx : 0 ≤ p.1 ∧ p.1 < (n : ℤ)) (hy : 0 ≤ p.2 ∧ p.2 + 5 ≤ (n : ℤ)) :
    100000 ≤ evaluate_player (segBoard n p (0, 1) pl 5) pl := by
  have hmem : ((intRange 0 ((n : ℤ) - 1)).map (fun y => (segBoard n p (0, 1) pl 5).grid p.1 y))
      ∈ extract_lines (segBoard n p (0, 1) pl 5) :=
    List.mem_append_left _ (List.mem_append_left _ (List.mem_flatMap.mpr
      ⟨p.1, mem_intRange.mpr ⟨hx.1, show p.1 ≤ (n : ℤ) - 1 by omega⟩,
        List.mem_cons_self _ _⟩))
  refine le_trans ?_ (evaluate_player_ge_of_mem _ pl hmem)
  rw [seg_main_d01 n p pl 5 hpl hy.1]
  exact score_block5_ge n p.2.toNat (by omega)

lemma seg5_ge_d10 (n : ℕ) (p : Pos) (pl : ℤ) (hpl : pl = 1 ∨ pl = -1)
    (hx : 0 ≤ p.1 ∧ p.1 + 5 ≤ (n : ℤ)) (hy : 0 ≤ p.2 ∧ p.2 < (n : ℤ)) :
    100000 ≤ evaluate_player (segBoard n p (1, 0) pl 5) pl := by
  have hmem : ((intRange 0 ((n : ℤ) - 1)).map (fun x => (segBoard n p (1, 0) pl 5).grid x p.2))
      ∈ extract_lines (segBoard n p (1, 0) pl 5) :=
    List.mem_append_left _ (List.mem_append_left _ (List.mem_flatMap.mpr
      ⟨p.2, mem_intRange.mpr ⟨hy.1, show p.2 ≤ (n : ℤ) - 1 by omega⟩,
        List.mem_cons_of_mem _ (List.mem_cons_self _ _)⟩))
  refine le_trans ?_ (evaluate_player_ge_of_mem _ pl hmem)
  rw [seg_main_d10 n p pl 5 hpl hx.1]
  exact score_block5_ge n p.1.toNat (by omega)

lemma seg5_ge_d11 (n : ℕ) (p : Pos) (pl : ℤ) (hpl : pl = 1 ∨ pl = -1)
    (hx : 0 ≤ p.1 ∧ p.1 + 5 ≤ (n : ℤ)) (hy : 0 ≤ p.2 ∧ p.2 + 5 ≤ (n : ℤ)) :
    100000 ≤ evaluate_player (segBoard n p (1, 1) pl 5) pl := by
  have hL : max (p.1 - p.2) 0 ≤ p.1 := max_le (by omega) hx.1
  have hU : p.1 + 5 ≤ min ((n : ℤ) + (p.1 - p.2)) (n : ℤ) - 1 + 1 :=
    calc p.1 + 5 ≤ min ((n : ℤ) + (p.1 - p.2)) (n : ℤ) := le_min (by omega) (by omega)
      _ = min ((n : ℤ) + (p.1 - p.2)) (n : ℤ) - 1 + 1 := by ring
  have hlen5 : 5 ≤ ((intRange (max (p.1 - p.2) 0)
      (min ((n : ℤ) + (p.1 - p.2)) (n : ℤ) - 1)).map
      (fun i => (segBoard n p (1, 1) pl 5).grid i (i - (p.1 - p.2)))).length := by
    rw [List.length_map, intRange_length]
    exact toNat_five_le hL hU
  have hmem : ((intRange (max (p.1 - p.2) 0) (min ((n : ℤ) + (p.1 - p.2)) (n : ℤ) - 1)).map
      (fun i => (segBoard n p (1, 1) pl 5).grid i (i - (p.1 - p.2))))
      ∈ extract_lines (segBoard n p (1, 1) pl 5) := by
    refine List.mem_append_left _ (List.mem_append_right _ ?_)
    refine List.mem_filterMap.mpr ⟨p.1 - p.2, ?_, ?_⟩
    · exact mem_intRange.mpr ⟨show -(n : ℤ) + 1 ≤ p.1 - p.2 by omega,
        show p.1 - p.2 ≤ (n : ℤ) - 1 by omega⟩
    · exact if_pos hlen5
  refine le_trans ?_ (evaluate_player_ge_of_mem _ pl hmem)
  rw [seg_main_d11_aux n p pl 5 hpl _ _ hL]
  exact score_block5_ge _ _ (toNat_block_le hL hU)

lemma seg5_ge_d1m1 (n : ℕ) (p : Pos) (pl : ℤ) (hpl : pl = 1 ∨ pl = -1)
    (hx : 0 ≤ p.1 ∧ p.1 + 5 ≤ (n : ℤ)) (hy : 4 ≤ p.2 ∧ p.2 < (n : ℤ)) :
    100000 ≤ evaluate_player (segBoard n p (1, -1) pl 5) pl := by
  have hL : max 0 (p.1 + p.2 - (n : ℤ) + 1) ≤ p.1 := max_le hx.1 (by omega)
  have hU : p.1 + 5 ≤ min ((n : ℤ) - 1) (p.1 + p.2) + 1 :=
    calc p.1 + 5 = p.1 + 4 + 1 := by ring
      _ ≤ min ((n : ℤ) - 1) (p.1 + p.2) + 1 :=
        add_le_add_right (le_min (by omega) (by omega)) 1
  have hlen5 : 5 ≤ ((intRange 0 ((n : ℤ) - 1)).filterMap
      (fun x => if 0 ≤ p.1 + p.2 - x ∧ p.1 + p.2 - x < (n : ℤ)
        then some ((segBoard n p (1, -1) pl 5).grid x (p.1 + p.2 - x)) else none)).length := by
    rw [anti_filterMap_eq n (p.1 + p.2) (segBoard n p (1, -1) pl 5).grid,
      List.length_map, intRange_length]
    exact toNat_five_le hL hU
  have hmem : ((intRange 0 ((n : ℤ) - 1)).filterMap
      (fun x => if 0 ≤ p.1 + p.2 - x ∧ p.1 + p.2 - x < (n : ℤ)
        then some ((segBoard n p (1, -1) pl 5).grid x (p.1 + p.2 - x)) else none))
      ∈ extract_lines (segBoard n p (1, -1) pl 5) := by
    refine List.mem_append_right _ ?_
    refine List.mem_filterMap.mpr ⟨p.1 + p.2, ?_, ?_⟩
    · exact mem_intRange.mpr ⟨show (0 : ℤ) ≤ p.1 + p.2 by omega,
        show p.1 + p.2 ≤ 2 * (n : ℤ) - 2 by omega⟩
    · exact if_pos hlen5
  refine le_trans ?_ (evaluate_player_ge_of_mem _ pl hmem)
  rw [anti_filterMap_eq n (p.1 + p.2) (segBoard n p (1, -1) pl 5).grid]
  rw [seg_main_d1m1_aux n p pl 5 hpl _ _ hL]
  exact score_block5_ge _ _ (toNat_block_le hL hU)

/-- `evaluate` reads only the size and the grid, not the move history. -/
lemma evaluate_congr {b1 b2 : Board} (hs : b1.size = b2.size) (hg : b1.grid = b2.grid)
    (pl : ℤ) : evaluate b1 pl = evaluate b2 pl := by
  rcases b1 with ⟨s1, g1, m1⟩
  rcases b2 with ⟨s2, g2, m2⟩
  simp only at hs hg
  subst hs
  subst hg
  rfl

lemma any_congr_list {α} (l : List α) (f g : α → Bool) (h : ∀ x ∈ l, f x = g x) :
    l.any f = l.any g := by
  induction l with
  | nil => rfl
  | cons x t ih =>
    simp only [List.any_cons, h x (List.mem_cons_self x t),
      ih (fun y hy => h y (List.mem_cons_of_mem x hy))]

/-- Writing the next stone of the segment extends the segment board. -/
lemma seg_grid_succ (n : ℕ) (p d : Pos) (pl : ℤ) (c : ℕ) :
    setCell (segBoard n p d pl c).grid (pt p d (c : ℤ)) pl = (segBoard n p d pl (c + 1)).grid := by
  funext x y
  simp only [setCell, segBoard, pt]
  by_cases hxy : x = p.1 + (c : ℤ) * d.1 ∧ y = p.2 + (c : ℤ) * d.2
  · rw [if_pos hxy,
      if_pos (List.any_eq_true.mpr ⟨c, List.mem_range.mpr (Nat.lt_succ_self c),
        decide_eq_true hxy⟩)]
  · rw [if_neg hxy]
    have hany : (List.range (c + 1)).any
        (fun k => decide (x = p.1 + (k : ℤ) * d.1 ∧ y = p.2 + (k : ℤ) * d.2)) =
        (List.range c).any
        (fun k => decide (x = p.1 + (k : ℤ) * d.1 ∧ y = p.2 + (k : ℤ) * d.2)) := by
      rw [List.range_succ, List.any_append]
      simp [hxy]
    rw [hany]

/-- Writing the base stone in front of a shifted segment extends it backwards. -/
lemma seg_grid_shift (n : ℕ) (p d : Pos) (pl : ℤ) (c : ℕ) :
    setCell (segBoard n (pt p d 1) d pl c).grid p pl = (segBoard n p d pl (c + 1)).grid := by
  funext x y
  simp only [setCell, segBoard, pt]
  rw [List.range_succ_eq_map, List.any_cons, List.any_map]
  have hshift : (List.range c).any
      ((fun (k : ℕ) => decide (x = p.1 + (k : ℤ) * d.1 ∧ y = p.2 + (k : ℤ) * d.2)) ∘ Nat.succ) =
      (List.range c).any
      (fun k => decide (x = p.1 + 1 * d.1 + (k : ℤ) * d.1 ∧ y = p.2 + 1 * d.2 + (k : ℤ) * d.2)) := by
    refine any_congr_list _ _ _ ?_
    intro k _
    simp only [Function.comp_apply]
    refine decide_eq_decide.mpr ?_
    constructor
    · rintro ⟨e1, e2⟩
      refine ⟨?_, ?_⟩
      · rw [e1]; push_cast; ring
      · rw [e2]; push_cast; ring
    · rintro ⟨e1, e2⟩
      refine ⟨?_, ?_⟩
      · rw [e1]; push_cast; ring
      · rw [e2]; push_cast; ring
  rw [hshift]
  have h0 : decide (x = p.1 + ((0 : ℕ) : ℤ) * d.1 ∧ y = p.2 + ((0 : ℕ) : ℤ) * d.2) =
      decide (x = p.1 ∧ y = p.2) := by
    refine decide_eq_decide.mpr ?_
    constructor
    · rintro ⟨e1, e2⟩
      refine ⟨?_, ?_⟩
      · rw [e1]; push_cast; ring
      · rw [e2]; push_cast; ring
    · rintro ⟨e1, e2⟩
      refine ⟨?_, ?_⟩
      · rw [e1]; push_cast; ring
      · rw [e2]; push_cast; ring
  rw [h0]
  by_cases hp : x = p.1 ∧ y = p.2
  · rw [if_pos hp, if_pos (by simp [hp])]
  · rw [if_neg hp, decide_eq_false hp, Bool.false_or]

/-- A successful placement of the next stone at the forward end yields a
board that evaluates like the extended segment board. -/
lemma seg_place_eval (n : ℕ) (p d : Pos) (pl : ℤ) (c : ℕ)
    (hin : (segBoard n p d pl c).in_bounds (pt p d (c : ℤ)) = true)
    (hempty : (segBoard n p d pl c).is_empty (pt p d (c : ℤ)) = true) :
    ((segBoard n p d pl c).place_move (pt p d (c : ℤ)) pl).1 = true ∧
    evaluate ((segBoard n p d pl c).place_move (pt p d (c : ℤ)) pl).2 pl =
      evaluate (segBoard n p d pl (c + 1)) pl := by
  have hpm : (segBoard n p d pl c).place_move (pt p d (c : ℤ)) pl =
      (true, ⟨(segBoard n p d pl c).size,
        setCell (segBoard n p d pl c).grid (pt p d (c : ℤ)) pl,
        pt p d (c : ℤ) :: (segBoard n p d pl c).moves⟩) := by
    unfold Board.place_move
    rw [hin, hempty]
    rfl
  refine ⟨by rw [hpm], ?_⟩
  rw [hpm]
  exact @evaluate_congr
    ⟨(segBoard n p d pl c).size,
      setCell (segBoard n p d pl c).grid (pt p d (c : ℤ)) pl,
      pt p d (c : ℤ) :: (segBoard n p d pl c).moves⟩
    (segBoard n p d pl (c + 1)) rfl (seg_grid_succ n p d pl c) pl

/-- A successful placement of the base stone behind a shifted segment
yields a board that evaluates like the extended segment board. -/
lemma seg_place_eval_back (n : ℕ) (p d : Pos) (pl : ℤ) (c : ℕ)
    (hin : (segBoard n (pt p d 1) d pl c).in_bounds p = true)
    (hempty : (segBoard n (pt p d 1) d pl c).is_empty p = true) :
    ((segBoard n (pt p d 1) d pl c).place_move p pl).1 = true ∧
    evaluate ((segBoard n (pt p d 1) d pl c).place_move p pl).2 pl =
      evaluate (segBoard n p d pl (c + 1)) pl := by
  have hpm : (segBoard n (pt p d 1) d pl c).place_move p pl =
      (true, ⟨(segBoard n (pt p d 1) d pl c).size,
        setCell (segBoard n (pt p d 1) d pl c).grid p pl,
        p :: (segBoard n (pt p d 1) d pl c).moves⟩) := by
    unfold Board.place_move
    rw [hin, hempty]
    rfl
  refine ⟨by rw [hpm], ?_⟩
  rw [hpm]
  exact @evaluate_congr
    ⟨(segBoard n (pt p d 1) d pl c).size,
      setCell (segBoard n (pt p d 1) d pl c).grid p pl,
      p :: (segBoard n (pt p d 1) d pl c).moves⟩
    (segBoard n p d pl (c + 1)) rfl (seg_grid_shift n p d pl c) pl

/-- Against the segment board the opponent scores zero, so `evaluate` is
the player's own score. -/
lemma seg_evaluate (n : ℕ) (p d : Pos) (pl : ℤ) (c : ℕ) (hpl : pl = 1 ∨ pl = -1) :
    evaluate (segBoard n p d pl c) pl = (evaluate_player (segBoard n p d pl c) pl : ℤ) := by
  unfold evaluate
  rw [opp_score_zero n p d pl c hpl]
  simp

/-- C9: for a position array holding exactly an existing 4-in-a-row of a
player (any board size, anchor, axis direction and player, the whole
5-cell window in bounds), placing the fifth stone that extends it to a
5-in-a-row — at either end — succeeds, and `evaluate` for that player
after the fifth stone strictly exceeds `evaluate` before it. -/
theorem evaluate_five_gt_four (n : ℕ) (p d : Pos) (pl : ℤ)
    (hd : d ∈ DIRS) (hpl : pl = 1 ∨ pl = -1)
    (hin0 : (mkBoard n).in_bounds p = true)
    (hin4 : (mkBoard n).in_bounds (pt p d 4) = true) :
    (((segBoard n p d pl 4).place_move (pt p d 4) pl).1 = true ∧
      evaluate ((segBoard n p d pl 4).place_move (pt p d 4) pl).2 pl =
        evaluate (segBoard n p d pl 5) pl ∧
      evaluate (segBoard n p d pl 4) pl < evaluate (segBoard n p d pl 5) pl) ∧
    (((segBoard n (pt p d 1) d pl 4).place_move p pl).1 = true ∧
      evaluate ((segBoard n (pt p d 1) d pl 4).place_move p pl).2 pl =
        evaluate (segBoard n p d pl 5) pl ∧
      evaluate (segBoard n (pt p d 1) d pl 4) pl < evaluate (segBoard n p d pl 5) pl) := by
  simp only [Board.in_bounds, mkBoard, decide_eq_true_eq] at hin0 hin4
  simp only [DIRS, List.mem_cons, List.not_mem_nil, or_false] at hd
  rcases hd with rfl | rfl | rfl | rfl
  · -- d = (1, 0)
    simp only [pt] at hin4
    have hgrid4 := seg_grid_d10 n p pl 4 hpl
    have hgrid4' := seg_grid_d10 n (pt p (1, 0) 1) pl 4 hpl
    have hinF : (segBoard n p (1, 0) pl 4).in_bounds (pt p (1, 0) ((4 : ℕ) : ℤ)) = true := by
      unfold Board.in_bounds
      refine decide_eq_true ⟨?_, ?_, ?_, ?_⟩ <;> (simp only [pt, segBoard]; omega)
    have hempF : (segBoard n p (1, 0) pl 4).is_empty (pt p (1, 0) ((4 : ℕ) : ℤ)) = true := by
      unfold Board.is_empty
      refine decide_eq_true ?_
      rcases seg_val n p (1, 0) pl 4 (pt p (1, 0) ((4 : ℕ) : ℤ)).1
          (pt p (1, 0) ((4 : ℕ) : ℤ)).2 with h1 | h1
      · exfalso
        obtain ⟨k, hk, e1, e2⟩ := (hgrid4 _ _).mp h1
        simp only [pt] at e1 e2
        omega
      · exact h1
    have hF := seg_place_eval n p (1, 0) pl 4 hinF hempF
    have hinB : (segBoard n (pt p (1, 0) 1) (1, 0) pl 4).in_bounds p = true := by
      unfold Board.in_bounds
      refine decide_eq_true ⟨by omega, ?_, by omega, ?_⟩ <;> (simp only [segBoard]; omega)
    have hempB : (segBoard n (pt p (1, 0) 1) (1, 0) pl 4).is_empty p = true := by
      unfold Board.is_empty
      refine decide_eq_true ?_
      rcases seg_val n (pt p (1, 0) 1) (1, 0) pl 4 p.1 p.2 with h1 | h1
      · exfalso
        obtain ⟨k, hk, e1, e2⟩ := (hgrid4' _ _).mp h1
        simp only [pt] at e1 e2
        omega
      · exact h1
    have hBk := seg_place_eval_back n p (1, 0) pl 4 hinB hempB
    have h4 := seg4_le_d10 n p pl hpl (by omega)
    have h4' := seg4_le_d10 n (pt p (1, 0) 1) pl hpl (by simp only [pt]; omega)
    have h5 := seg5_ge_d10 n p pl hpl ⟨by omega, by omega⟩ ⟨by omega, by omega⟩
    have hlt : evaluate (segBoard n p (1, 0) pl 4) pl <
        evaluate (segBoard n p (1, 0) pl 5) pl := by
      rw [seg_evaluate n p (1, 0) pl 4 hpl, seg_evaluate n p (1, 0) pl 5 hpl]
      omega
    have hlt' : evaluate (segBoard n (pt p (1, 0) 1) (1, 0) pl 4) pl <
        evaluate (segBoard n p (1, 0) pl 5) pl := by
      rw [seg_evaluate n (pt p (1, 0) 1) (1, 0) pl 4 hpl, seg_evaluate n p (1, 0) pl 5 hpl]
      omega
    exact ⟨⟨hF.1, hF.2, hlt⟩, hBk.1, hBk.2, hlt'⟩
  · -- d = (0, 1)
    simp only [pt] at hin4
    have hgrid4 := seg_grid_d01 n p pl 4 hpl
    have hgrid4' := seg_grid_d01 n (pt p (0, 1) 1) pl 4 hpl
    have hinF : (segBoard n p (0, 1) pl 4).in_bounds (pt p (0, 1) ((4 : ℕ) : ℤ)) = true := by
      unfold Board.in_bounds
      refine decide_eq_true ⟨?_, ?_, ?_, ?_⟩ <;> (simp only [pt, segBoard]; omega)
    have hempF : (segBoard n p (0, 1) pl 4).is_empty (pt p (0, 1) ((4 : ℕ) : ℤ)) = true := by
      unfold Board.is_empty
      refine decide_eq_true ?_
      rcases seg_val n p (0, 1) pl 4 (pt p (0, 1) ((4 : ℕ) : ℤ)).1
          (pt p (0, 1) ((4 : ℕ) : ℤ)).2 with h1 | h1
      · exfalso
        obtain ⟨k, hk, e1, e2⟩ := (hgrid4 _ _).mp h1
        simp only [pt] at e1 e2
        omega
      · exact h1
    have hF := seg_place_eval n p (0, 1) pl 4 hinF hempF
    have hinB : (segBoard n (pt p (0, 1) 1) (0, 1) pl 4).in_bounds p = true := by
      unfold Board.in_bounds
      refine decide_eq_true ⟨by omega, ?_, by omega, ?_⟩ <;> (simp only [segBoard]; omega)
    have hempB : (segBoard n (pt p (0, 1) 1) (0, 1) pl 4).is_empty p = true := by
      unfold Board.is_empty
      refine decide_eq_true ?_
      rcases seg_val n (pt p (0, 1) 1) (0, 1) pl 4 p.1 p.2 with h1 | h1
      · exfalso
        obtain ⟨k, hk, e1, e2⟩ := (hgrid4' _ _).mp h1
        simp only [pt] at e1 e2
        omega
      · exact h1
    have hBk := seg_place_eval_back n p (0, 1) pl 4 hinB hempB
    have h4 := seg4_le_d01 n p pl hpl (by omega)
    have h4' := seg4_le_d01 n (pt p (0, 1) 1) pl hpl (by simp only [pt]; omega)
    have h5 := seg5_ge_d01 n p pl hpl ⟨by omega, by omega⟩ ⟨by omega, by omega⟩
    have hlt : evaluate (segBoard n p (0, 1) pl 4) pl <
        evaluate (segBoard n p (0, 1) pl 5) pl := by
      rw [seg_evaluate n p (0, 1) pl 4 hpl, seg_evaluate n p (0, 1) pl 5 hpl]
      omega
    have hlt' : evaluate (segBoard n (pt p (0, 1) 1) (0, 1) pl 4) pl <
        evaluate (segBoard n p (0, 1) pl 5) pl := by
      rw [seg_evaluate n (pt p (0, 1) 1) (0, 1) pl 4 hpl, seg_evaluate n p (0, 1) pl 5 hpl]
      omega
    exact ⟨⟨hF.1, hF.2, hlt⟩, hBk.1, hBk.2, hlt'⟩
  · -- d = (1, 1)
    simp only [pt] at hin4
    have hgrid4 := seg_grid_d11 n p pl 4 hpl
    have hgrid4' := seg_grid_d11 n (pt p (1, 1) 1) pl 4 hpl
    have hinF : (segBoard n p (1, 1) pl 4).in_bounds (pt p (1, 1) ((4 : ℕ) : ℤ)) = true := by
      unfold Board.in_bounds
      refine decide_eq_true ⟨?_, ?_, ?_, ?_⟩ <;> (simp only [pt, segBoard]; omega)
    have hempF : (segBoard n p (1, 1) pl 4).is_empty (pt p (1, 1) ((4 : ℕ) : ℤ)) = true := by
      unfold Board.is_empty
      refine decide_eq_true ?_
      rcases seg_val n p (1, 1) pl 4 (pt p (1, 1) ((4 : ℕ) : ℤ)).1
          (pt p (1, 1) ((4 : ℕ) : ℤ)).2 with h1 | h1
      · exfalso
        obtain ⟨k, hk, e1, e2⟩ := (hgrid4 _ _).mp h1
        simp only [pt] at e1 e2
        omega
      · exact h1
    have hF := seg_place_eval n p (1, 1) pl 4 hinF hempF
    have hinB : (segBoard n (pt p (1, 1) 1) (1, 1) pl 4).in_bounds p = true := by
      unfold Board.in_bounds
      refine decide_eq_true ⟨by omega, ?_, by omega, ?_⟩ <;> (simp only [segBoard]; omega)
    have hempB : (segBoard n (pt p (1, 1) 1) (1, 1) pl 4).is_empty p = true := by
      unfold Board.is_empty
      refine decide_eq_true ?_
      rcases seg_val n (pt p (1, 1) 1) (1, 1) pl 4 p.1 p.2 with h1 | h1
      · exfalso
        obtain ⟨k, hk, e1, e2⟩ := (hgrid4' _ _).mp h1
        simp only [pt] at e1 e2
        omega
      · exact h1
    have hBk := seg_place_eval_back n p (1, 1) pl 4 hinB hempB
    have h4 := seg4_le_d11 n p pl hpl (by omega) (by omega)
    have h4' := seg4_le_d11 n (pt p (1, 1) 1) pl hpl (by simp only [pt]; omega)
      (by simp only [pt]; omega)
    have h5 := seg5_ge_d11 n p pl hpl ⟨by omega, by omega⟩ ⟨by omega, by omega⟩
    have hlt : evaluate (segBoard n p (1, 1) pl 4) pl <
        evaluate (segBoard n p (1, 1) pl 5) pl := by
      rw [seg_evaluate n p (1, 1) pl 4 hpl, seg_evaluate n p (1, 1) pl 5 hpl]
      omega
    have hlt' : evaluate (segBoard n (pt p (1, 1) 1) (1, 1) pl 4) pl <
        evaluate (segBoard n p (1, 1) pl 5) pl := by
      rw [seg_evaluate n (pt p (1, 1) 1) (1, 1) pl 4 hpl, seg_evaluate n p (1, 1) pl 5 hpl]
      omega
    exact ⟨⟨hF.1, hF.2, hlt⟩, hBk.1, hBk.2, hlt'⟩
  · -- d = (1, -1)
    simp only [pt] at hin4
    have hgrid4 := seg_grid_d1m1 n p pl 4 hpl
    have hgrid4' := seg_grid_d1m1 n (pt p (1, -1) 1) pl 4 hpl
    have hinF : (segBoard n p (1, -1) pl 4).in_bounds (pt p (1, -1) ((4 : ℕ) : ℤ)) = true := by
      unfold Board.in_bounds
      refine decide_eq_true ⟨?_, ?_, ?_, ?_⟩ <;> (simp only [pt, segBoard]; omega)
    have hempF : (segBoard n p (1, -1) pl 4).is_empty (pt p (1, -1) ((4 : ℕ) : ℤ)) = true := by
      unfold Board.is_empty
      refine decide_eq_true ?_
      rcases seg_val n p (1, -1) pl 4 (pt p (1, -1) ((4 : ℕ) : ℤ)).1
          (pt p (1, -1) ((4 : ℕ) : ℤ)).2 with h1 | h1
      · exfalso
        obtain ⟨k, hk, e1, e2⟩ := (hgrid4 _ _).mp h1
        simp only [pt] at e1 e2
        omega
      · exact h1
    have hF := seg_place_eval n p (1, -1) pl 4 hinF hempF
    have hinB : (segBoard n (pt p (1, -1) 1) (1, -1) pl 4).in_bounds p = true := by
      unfold Board.in_bounds
      refine decide_eq_true ⟨by omega, ?_, by omega, ?_⟩ <;> (simp only [segBoard]; omega)
    have hempB : (segBoard n (pt p (1, -1) 1) (1, -1) pl 4).is_empty p = true := by
      unfold Board.is_empty
      refine decide_eq_true ?_
      rcases seg_val n (pt p (1, -1) 1) (1, -1) pl 4 p.1 p.2 with h1 | h1
      · exfalso
        obtain ⟨k, hk, e1, e2⟩ := (hgrid4' _ _).mp h1
        simp only [pt] at e1 e2
        omega
      · exact h1
    have hBk := seg_place_eval_back n p (1, -1) pl 4 hinB hempB
    have h4 := seg4_le_d1m1 n p pl hpl (by omega) (by omega)
    have h4' := seg4_le_d1m1 n (pt p (1, -1) 1) pl hpl (by simp only [pt]; omega)
      (by simp only [pt]; omega)
    have h5 := seg5_ge_d1m1 n p pl hpl ⟨by omega, by omega⟩ ⟨by omega, by omega⟩
    have hlt : evaluate (segBoard n p (1, -1) pl 4) pl <
        evaluate (segBoard n p (1, -1) pl 5) pl := by
      rw [seg_evaluate n p (1, -1) pl 4 hpl, seg_evaluate n p (1, -1) pl 5 hpl]
      omega
    have hlt' : evaluate (segBoard n (pt p (1, -1) 1) (1, -1) pl 4) pl <
        evaluate (segBoard n p (1, -1) pl 5) pl := by
      rw [seg_evaluate n (pt p (1, -1) 1) (1, -1) pl 4 hpl, seg_evaluate n p (1, -1) pl 5 hpl]
      omega
    exact ⟨⟨hF.1, hF.2, hlt⟩, hBk.1, hBk.2, hlt'⟩

theorem evaluate_five_gt_four_witness :
    ((0, 1) ∈ DIRS ∧ ((1 : ℤ) = 1 ∨ (1 : ℤ) = -1) ∧
      (mkBoard 5).in_bounds ((0 : ℤ), (0 : ℤ)) = true ∧
      (mkBoard 5).in_bounds (pt ((0 : ℤ), (0 : ℤ)) (0, 1) 4) = true) ∧
    evaluate (segBoard 5 ((0 : ℤ), (0 : ℤ)) (0, 1) 1 4) 1 <
      evaluate (segBoard 5 ((0 : ℤ), (0 : ℤ)) (0, 1) 1 5) 1 :=
  ⟨⟨by decide, Or.inl rfl, by decide, by decide⟩,
    (evaluate_five_gt_four 5 ((0 : ℤ), (0 : ℤ)) (0, 1) 1 (by decide) (Or.inl rfl)
      (by decide) (by decide)).1.2.2⟩

end Gomoku
